import Mathlib

/-!
# rtags: build-output ingestion (`src/MakefileParser.cpp`)

A shallow embedding of `DirectoryTracker` and of `MakefileParser`, and a model
of the precompile registry declared in `rbuild/Precompile.h`, followed by
theorems about them.

Conventions of the embedding:

* a `ByteArray` is a list of characters; the C `char` values are the characters
  below 256, and every concrete input below is ASCII;
* `List<Path>` is a list in `push_back` order: the bottom of the stack is the
  head, the top (`back()`) is the last element;
* a call that ends the process (`qFatal`, a failed `assert`) and a call with no
  defined result (`back()` / `pop_back()` on an empty list) are explicit
  `Abort` outcomes;
* the collaborators that are not part of these sources (`Path::resolved`,
  `GccArguments`) are parameters, gathered in `Collaborators`.
-/

namespace RTags

/-- Byte strings of the program (`ByteArray`). -/
abbrev ByteArray := List Char

/-- Paths are byte strings (`class Path : public ByteArray`). -/
abbrev Path := ByteArray

/-- The zero byte that ends a C string. -/
def nul : Char := Char.ofNat 0

/-- The line separator searched for by `processMakeOutput`. -/
def newline : Char := Char.ofNat 10

/-- The closing quote of a directory announcement. -/
def apostrophe : Char := Char.ofNat 39

/-- The opening quote of a directory announcement. -/
def backquote : Char := Char.ofNat 96

/-- What a `const char *` reader sees of a byte string: the bytes before the
first zero byte (`constData()` handed to a C-string consumer such as
`ByteArray::operator+=(const char *)` or the regular-expression search). -/
def cstr (b : ByteArray) : ByteArray :=
  b.takeWhile (fun c => c != nul)

/-- Modelled from the spec: `ByteArray::indexOf(char)` (header `ByteArray.h`, missing
from the sources), the search for the newline that ends a complete line:
position of the first occurrence, `none` for the source's `-1`. -/
def indexOf (c : Char) : ByteArray → Option Nat
  | [] => none
  | x :: xs => if x = c then some 0 else (indexOf c xs).map (fun n => n + 1)

/-- Modelled from the spec: `ByteArray::left(n)` (header `ByteArray.h`, missing from
the sources), the extraction of a complete line: the first `n` bytes. -/
def left (b : ByteArray) (n : Nat) : ByteArray := b.take n

/-- Modelled from the spec: `ByteArray::mid(n)` (header `ByteArray.h`, missing from
the sources), what is retained after a complete line: the bytes from position
`n` on. -/
def mid (b : ByteArray) (n : Nat) : ByteArray := b.drop n

/-- Removes a literal from the front of a byte string, if it is there. -/
def dropLiteral : ByteArray → ByteArray → Option ByteArray
  | [], s => some s
  | _ :: _, [] => none
  | c :: cs, x :: xs => if c = x then dropLiteral cs xs else none

/-- Modelled from the spec: the class `RegExp` (header `RegExp.h`) is missing from
the sources; the tracker "matches `line` against the build tool's
directory-change announcement pattern, which captures a verb and a directory
string". This is a match of the pattern written in `DirectoryTracker::track`,
  `make[^:]*: ([^ ]+) directory [backquote]([^']+)'`,
starting exactly at the front of `s`; the result is the pair of captures.
Each repetition is followed by a character it excludes, so a match from a given
start is unique. -/
def matchHere (s : ByteArray) : Option (ByteArray × ByteArray) :=
  match dropLiteral "make".toList s with
  | none => none
  | some r1 =>
    match dropLiteral ": ".toList (r1.dropWhile (fun c => c != ':')) with
    | none => none
    | some r2 =>
      let verb := r2.takeWhile (fun c => c != ' ')
      if verb = [] then none else
      match dropLiteral (" directory ".toList ++ [backquote])
          (r2.dropWhile (fun c => c != ' ')) with
      | none => none
      | some r3 =>
        let dir := r3.takeWhile (fun c => c != apostrophe)
        if dir = [] then none else
        match dropLiteral [apostrophe] (r3.dropWhile (fun c => c != apostrophe)) with
        | none => none
        | some _ => some (verb, dir)

/-- Modelled from the spec: `RegExp::indexIn(text, 0, &captures)` for the pattern
of `DirectoryTracker::track` (the class `RegExp` is missing from the sources):
the leftmost match anywhere in the text, `none` for the source's `-1`, otherwise
captures 1 and 2. -/
def indexIn : ByteArray → Option (ByteArray × ByteArray)
  | [] => none
  | c :: cs =>
    match matchHere (c :: cs) with
    | some r => some r
    | none => indexIn cs

/-- The ways a call can end without a result. -/
inductive Abort
  /-- The call `qFatal("Unable to resolve path %s (%s)", dir, path())`. -/
  | fatal (dir cwd : ByteArray)
  /-- A failed `assert`. -/
  | assertion
  /-- The calls `back()` or `pop_back()` on an empty list. -/
  | undefinedBehaviour
  /-- The model of a loop ran out of steps (never the case, see
  `processMakeOutputLoop_eq`). -/
  | outOfFuel
  deriving DecidableEq, Repr

/-- Outcomes of calls can be compared. -/
instance instDecidableEqOutcome {ε β : Type} [DecidableEq ε] [DecidableEq β] :
    DecidableEq (Except ε β)
  | .ok a, .ok b => if h : a = b then isTrue (by rw [h]) else isFalse (by simp [h])
  | .error a, .error b => if h : a = b then isTrue (by rw [h]) else isFalse (by simp [h])
  | .ok _, .error _ => isFalse (by simp)
  | .error _, .ok _ => isFalse (by simp)

/-- What the tracker writes to the log. -/
inductive LogEvent
  /-- The report `error("Invalid directory track: %s %s", verb, dir)`. -/
  | error (verb dir : ByteArray)
  /-- The message `debug("New directory resolved: %s", newPath)`. -/
  | debug (newPath : Path)
  /-- The message `verboseDebug() << "leaveDirectory" << dir`. -/
  | verboseDebug (dir : ByteArray)
  deriving DecidableEq, Repr

/-- The class `DirectoryTracker`: the stack `mPaths`, and the log it has
written so far. -/
structure DirectoryTracker where
  mPaths : List Path
  log : List LogEvent
  deriving DecidableEq, Repr

namespace DirectoryTracker

/-- The constructor `DirectoryTracker::DirectoryTracker()`. -/
def new : DirectoryTracker := { mPaths := [], log := [] }

/-- The method `DirectoryTracker::init`. -/
def init (t : DirectoryTracker) (path : Path) : DirectoryTracker :=
  { t with mPaths := t.mPaths ++ [path] }

/-- The method `DirectoryTracker::path`: `mPaths.back()`. -/
def path (t : DirectoryTracker) : Except Abort Path :=
  match t.mPaths.getLast? with
  | some p => .ok p
  | none => .error .undefinedBehaviour

/-- The method `DirectoryTracker::enterDirectory`; `resolved dir cwd` is
`Path::resolved(dir, cwd, &ok)`, `none` when `ok` is false. -/
def enterDirectory (resolved : ByteArray → Path → Option Path)
    (t : DirectoryTracker) (dir : ByteArray) : Except Abort DirectoryTracker :=
  match t.path with
  | .error e => .error e
  | .ok cwd =>
    match resolved dir cwd with
    | some newPath =>
      .ok { mPaths := t.mPaths ++ [newPath], log := t.log ++ [.debug newPath] }
    | none => .error (.fatal dir cwd)

/-- The method `DirectoryTracker::leaveDirectory`: an unconditional
`mPaths.pop_back()`. -/
def leaveDirectory (t : DirectoryTracker) (dir : ByteArray) :
    Except Abort DirectoryTracker :=
  match t.mPaths with
  | [] => .error .undefinedBehaviour
  | p :: ps => .ok { mPaths := (p :: ps).dropLast, log := t.log ++ [.verboseDebug dir] }

/-- The method `DirectoryTracker::track`. The `assert(captures.size() >= 3)`
cannot fail: a match of the pattern has both groups. -/
def track (resolved : ByteArray → Path → Option Path)
    (t : DirectoryTracker) (line : ByteArray) : Except Abort DirectoryTracker :=
  match indexIn (cstr line) with
  | none => .ok t
  | some (verb, dir) =>
    if verb = "Entering".toList then t.enterDirectory resolved dir
    else if verb = "Leaving".toList then t.leaveDirectory dir
    else .ok { t with log := t.log ++ [.error verb dir] }

/-- Feeds lines to `track` one after the other, stopping at the first abort. -/
def trackAll (resolved : ByteArray → Path → Option Path) :
    DirectoryTracker → List ByteArray → Except Abort DirectoryTracker
  | t, [] => .ok t
  | t, line :: lines =>
    match t.track resolved line with
    | .error e => .error e
    | .ok t1 => trackAll resolved t1 lines

end DirectoryTracker

/-- The collaborators of `MakefileParser` that are not part of these sources,
over the type `α` of `GccArguments` values. -/
structure Collaborators (α : Type) where
  /-- The call `Path::resolved(dir, cwd, &ok)`; `none` when `ok` is false. -/
  resolved : ByteArray → Path → Option Path
  /-- The call `GccArguments::parse(line, cwd)`; `none` when it returns false. -/
  parse : ByteArray → Path → Option α
  /-- The call `GccArguments::addFlags(extraFlags)`. -/
  addFlags : α → List ByteArray → α
  /-- The test `args.type() == GccArguments::Pch`. -/
  isPch : α → Bool

/-- The states of a `QProcess` (`QProcess::ProcessState`). -/
inductive ProcessState
  | NotRunning
  | Starting
  | Running
  deriving DecidableEq, Repr

/-- What the parser sees of its child process. -/
structure QProcess where
  state : ProcessState
  deriving DecidableEq, Repr

/-- The type `Map<ByteArray, ByteArray>` of `mPchs`, as an association list with
at most one entry per key. -/
abbrev PchMap := List (ByteArray × ByteArray)

/-- Modelled from the spec: `Map::find` (header `Map.h`, missing from the sources),
the lookup of a recorded input header: the mapped value, `none` for `end()`. -/
def PchMap.find (m : PchMap) (key : ByteArray) : Option ByteArray :=
  match m with
  | [] => none
  | (k, v) :: rest => if k = key then some v else PchMap.find rest key

/-- Modelled from the spec: `Map::operator[]` followed by an assignment (header
`Map.h`, missing from the sources), the recording of an input header for an
output artifact; an earlier entry for the key is replaced. -/
def PchMap.assign (m : PchMap) (key value : ByteArray) : PchMap :=
  (key, value) :: m.filter (fun kv => kv.1 != key)

/-- The class `MakefileParser`, with the values handed to the `fileReady` signal
so far and the number of `done` signals. The counters are unbounded naturals
(their declared type is in `MakefileParser.h`, which is not part of the
sources). The member `mMakefile` is empty until `run` sets it. -/
structure MakefileParser (α : Type) where
  mProc : Option QProcess
  mTracker : DirectoryTracker
  mExtraFlags : List ByteArray
  mSourceCount : Nat
  mPchCount : Nat
  mData : ByteArray
  mPchs : PchMap
  fileReady : List α
  done : Nat
  mMakefile : Path := []
  deriving DecidableEq

namespace MakefileParser

variable {α : Type}

/-- The constructor `MakefileParser::MakefileParser(extraFlags, conn)`. -/
def new (extraFlags : List ByteArray) : MakefileParser α :=
  { mProc := none, mTracker := DirectoryTracker.new, mExtraFlags := extraFlags,
    mSourceCount := 0, mPchCount := 0, mData := [], mPchs := [],
    fileReady := [], done := 0 }

/-- The method `MakefileParser::processMakeLine`. -/
def processMakeLine (env : Collaborators α) (s : MakefileParser α) (line : ByteArray) :
    Except Abort (MakefileParser α) :=
  match s.mTracker.path with
  | .error e => .error e
  | .ok cwd =>
    match env.parse line cwd with
    | some parsed =>
      let args := env.addFlags parsed s.mExtraFlags
      if env.isPch args then
        .ok { s with mPchCount := s.mPchCount + 1, fileReady := s.fileReady ++ [args] }
      else
        .ok { s with mSourceCount := s.mSourceCount + 1, fileReady := s.fileReady ++ [args] }
    | none =>
      match s.mTracker.track env.resolved line with
      | .error e => .error e
      | .ok t => .ok { s with mTracker := t }

/-- Dispatches lines to `processMakeLine` one after the other, stopping at the
first abort. -/
def processLines (env : Collaborators α) :
    MakefileParser α → List ByteArray → Except Abort (MakefileParser α)
  | s, [] => .ok s
  | s, line :: lines =>
    match s.processMakeLine env line with
    | .error e => .error e
    | .ok s1 => processLines env s1 lines

/-- The `while` loop of `MakefileParser::processMakeOutput`, with a bound on the
number of iterations. -/
def processMakeOutputLoop (env : Collaborators α) :
    Nat → MakefileParser α → Except Abort (MakefileParser α)
  | 0, _ => .error .outOfFuel
  | fuel + 1, s =>
    match indexOf newline s.mData with
    | none => .ok s
    | some nextNewline =>
      match s.processMakeLine env (left s.mData nextNewline) with
      | .error e => .error e
      | .ok s1 =>
        processMakeOutputLoop env fuel { s1 with mData := mid s1.mData (nextNewline + 1) }

/-- The method `MakefileParser::processMakeOutput`; `chunk` is what
`mProc->readAllStandardOutput()` returns. The chunk is appended through
`constData()`, as a C string. Every iteration of the loop removes a byte of
`mData`, so its length bounds the number of iterations. -/
def processMakeOutput (env : Collaborators α) (s : MakefileParser α) (chunk : ByteArray) :
    Except Abort (MakefileParser α) :=
  match s.mProc with
  | none => .error .assertion
  | some _ =>
    let s1 := { s with mData := s.mData ++ cstr chunk }
    processMakeOutputLoop env (s1.mData.length + 1) s1

/-- The arrival of several chunks on standard output, one `processMakeOutput`
each, stopping at the first abort. -/
def processChunks (env : Collaborators α) :
    MakefileParser α → List ByteArray → Except Abort (MakefileParser α)
  | s, [] => .ok s
  | s, chunk :: chunks =>
    match s.processMakeOutput env chunk with
    | .error e => .error e
    | .ok s1 => processChunks env s1 chunks

/-- The method `MakefileParser::onDone`: emits `done`, nothing else. -/
def onDone (s : MakefileParser α) : MakefileParser α :=
  { s with done := s.done + 1 }

/-- The whole of standard output arriving in chunks, followed by the end of the
child process: `run` connects `readyReadStandardOutput` to `processMakeOutput`
and `finished` to `onDone`. -/
def processStream (env : Collaborators α) (s : MakefileParser α) (chunks : List ByteArray) :
    Except Abort (MakefileParser α) :=
  match s.processChunks env chunks with
  | .error e => .error e
  | .ok s1 => .ok s1.onDone

/-- The method `MakefileParser::mapPchToInput`. -/
def mapPchToInput (s : MakefileParser α) (input : List ByteArray) : List ByteArray :=
  input.foldl
    (fun output candidate =>
      match s.mPchs.find candidate with
      | some header => output ++ [header]
      | none => output)
    []

/-- The method `MakefileParser::setPch`. -/
def setPch (s : MakefileParser α) (output input : ByteArray) : MakefileParser α :=
  { s with mPchs := s.mPchs.assign output input }

end MakefileParser

/-- A resolver for examples: absolute paths resolve to themselves, nothing else
resolves. -/
def resolveAbsolute (dir : ByteArray) (_cwd : Path) : Option Path :=
  match dir with
  | '/' :: _ => some dir
  | _ => none

/-- What `track` sees in a line: the captures of the leftmost match of the
announcement pattern in the line read as a C string. -/
def announcement (line : ByteArray) : Option (ByteArray × ByteArray) :=
  indexIn (cstr line)

/-- The line is an announcement with the verb `Entering`. -/
def isEntering (line : ByteArray) : Bool :=
  match announcement line with
  | some (verb, _) => decide (verb = "Entering".toList)
  | none => false

/-- The line is an announcement with the verb `Leaving`. -/
def isLeaving (line : ByteArray) : Bool :=
  match announcement line with
  | some (verb, _) => decide (verb = "Leaving".toList)
  | none => false

/-- The number of `Entering` announcements among the lines. -/
def countEntering (lines : List ByteArray) : Nat := lines.countP isEntering

/-- The number of `Leaving` announcements among the lines. -/
def countLeaving (lines : List ByteArray) : Nat := lines.countP isLeaving

/-- A well-formed nesting: no prefix of the lines has more `Leaving` than
`Entering` announcements, beyond `slack` entries that may be left. -/
def WellNested (slack : Nat) (lines : List ByteArray) : Prop :=
  ∀ k, countLeaving (lines.take k) ≤ slack + countEntering (lines.take k)

/-- An `Entering` announcement, as printed by a recursive build. -/
def enteringLib : ByteArray := "make[1]: Entering directory `/src/lib'".toList

/-- The matching `Leaving` announcement. -/
def leavingLib : ByteArray := "make[1]: Leaving directory `/src/lib'".toList

namespace MakefileParser

variable {α : Type}

/-- The session with its buffer replaced. -/
def withData (s : MakefileParser α) (data : ByteArray) : MakefileParser α :=
  { s with mData := data }

end MakefileParser

/-- The newline-terminated segments of a byte string, without their newline, and
the bytes after the last newline. -/
def segments : ByteArray → List ByteArray × ByteArray
  | [] => ([], [])
  | c :: cs =>
    if c = newline then ([] :: (segments cs).1, (segments cs).2)
    else
      match (segments cs).1 with
      | [] => ([], c :: (segments cs).2)
      | l :: ls => ((c :: l) :: ls, (segments cs).2)

/-- A resolver for examples: absolute paths resolve to themselves, a relative
path is appended to the directory it is resolved against. -/
def resolveRelative (dir : ByteArray) (cwd : Path) : Option Path :=
  match dir with
  | '/' :: _ => some dir
  | _ => some (cwd ++ '/' :: dir)

/-- Collaborators for examples: every line is accepted as an ordinary compile
and is its own parse. -/
def acceptAll : Collaborators ByteArray :=
  { resolved := resolveAbsolute, parse := fun line _ => some line,
    addFlags := fun parsed _ => parsed, isPch := fun _ => false }

/-- Collaborators for examples: no line is accepted. -/
def rejectAll : Collaborators ByteArray :=
  { resolved := resolveAbsolute, parse := fun _ _ => none,
    addFlags := fun parsed _ => parsed, isPch := fun _ => false }

/-- Collaborators for examples: a line starting with `gcc ` is accepted and
parsed to the line, the working directory it was parsed in and the flags merged
in so far; an invocation whose line ends in `.gch` generates a precompiled
header. -/
def recording : Collaborators (ByteArray × Path × List ByteArray) :=
  { resolved := resolveRelative,
    parse := fun line cwd =>
      if "gcc ".toList.isPrefixOf line then some (line, cwd, []) else none,
    addFlags := fun parsed flags => (parsed.1, parsed.2.1, parsed.2.2 ++ flags),
    isPch := fun parsed => ".gch".toList.isSuffixOf parsed.1 }

/-- A session for examples: a running child process, the tracker initialised at
`root`, nothing received yet. -/
def sessionAt (α : Type) (root : Path) (extraFlags : List ByteArray) : MakefileParser α :=
  { mProc := some { state := .Running },
    mTracker := DirectoryTracker.new.init root,
    mExtraFlags := extraFlags, mSourceCount := 0, mPchCount := 0, mData := [],
    mPchs := [], fileReady := [], done := 0 }

/-- A session for examples, at `/src` and without extra flags. -/
def sessionAtSrc : MakefileParser ByteArray := sessionAt ByteArray "/src".toList []

/-- Build output for examples: a compile inside `/src/lib`, then one back in
`/src`. -/
def buildLines : List ByteArray :=
  [enteringLib, "gcc -c foo.c".toList, leavingLib, "gcc -c bar.c".toList]

/-- The session `sessionAt _ "/src" ["-DX"]` after `buildLines`. -/
def sessionAfterBuild : MakefileParser (ByteArray × Path × List ByteArray) :=
  { mProc := some { state := .Running },
    mTracker :=
      { mPaths := ["/src".toList],
        log := [.debug "/src/lib".toList, .verboseDebug "/src/lib".toList] },
    mExtraFlags := ["-DX".toList], mSourceCount := 2, mPchCount := 0, mData := [],
    mPchs := [],
    fileReady :=
      [("gcc -c foo.c".toList, "/src/lib".toList, ["-DX".toList]),
       ("gcc -c bar.c".toList, "/src".toList, ["-DX".toList])],
    done := 0 }

/-- Standard output for examples, cut in the middle of a line: an announcement
in two chunks, then the start of a line that is not completed. -/
def twoChunks : List ByteArray :=
  ["make[1]: Ente".toList, "ring directory `/src/lib'".toList ++ newline :: "gcc".toList]

/-- A chunk with a zero byte in the middle of its only line: `a`, zero, `b`,
newline. -/
def chunkWithNul : ByteArray := ['a', nul, 'b', newline]

/-- The operations of the destructor, on the child process and on the tracker. -/
inductive Teardown
  /-- The call `mProc->kill()`, the hard kill. -/
  | kill
  /-- The call `mProc->terminate()`, the graceful request. -/
  | terminate
  /-- The call `mProc->waitForFinished()`. -/
  | waitForFinished
  /-- The statement `delete mProc`. -/
  | deleteProc
  /-- The statement `delete mTracker`. -/
  | deleteTracker
  deriving DecidableEq, Repr

namespace MakefileParser

variable {α : Type}

/-- The method `MakefileParser::isDone`. -/
def isDone (s : MakefileParser α) : Bool :=
  match s.mProc with
  | some proc => decide (proc.state = .NotRunning)
  | none => false

/-- The destructor `MakefileParser::~MakefileParser`: the operations it
performs, in order. -/
def destructor (s : MakefileParser α) : List Teardown :=
  match s.mProc with
  | some _ => [.kill, .terminate, .waitForFinished, .deleteProc, .deleteTracker]
  | none => [.deleteTracker]

end MakefileParser

/-- The compiler line of the scenario. -/
def compileFoo : ByteArray := "gcc -Iinc -c foo.c -o foo.o".toList

/-- A line that generates a precompiled header, for `recording`. -/
def precompileFoo : ByteArray := "gcc -x c++-header foo.h -o foo.h.gch".toList

/-- A chunk whose zero byte is followed by a complete announcement line. -/
def chunkHidingLine : ByteArray :=
  "gcc".toList ++ nul :: (newline :: enteringLib ++ [newline])

/-- What `run` asks of the host, none of it part of these sources. -/
structure Host where
  /-- The macro `MAKE`: `"make"` unless the build defines it. -/
  make : ByteArray
  /-- Whether `OS_Mac` is defined. -/
  osMac : Bool
  /-- The call `RTags::applicationDirPath()`. -/
  applicationDirPath : Path
  /-- The path left by the call `Path::resolve()`. -/
  resolve : Path → Path
  /-- The call `Path::parentDir()`. -/
  parentDir : Path → Path

/-- The conversions to `QString` used by `run`, over the type `σ` of `QString`
values. -/
structure QStrings (σ : Type) where
  /-- The conversion `QLatin1String(literal)`. -/
  latin1 : ByteArray → σ
  /-- The conversion `QString::fromLocal8Bit(data, size)`. -/
  fromLocal8Bit : ByteArray → σ
  /-- The conversion `QString::fromStdString(string)`. -/
  fromStdString : ByteArray → σ

/-- What `run` has prepared when it calls `mProc->start`. -/
structure StartCall (σ : Type) where
  /-- The variable inserted into the copy of the system environment, if any. -/
  environment : Option (ByteArray × Path)
  /-- The file removed by `unlink`. -/
  unlinked : ByteArray
  /-- The program of `mProc->start(program, arguments)`. -/
  program : σ
  /-- The arguments of `mProc->start(program, arguments)`. -/
  arguments : List σ

/-- The method `MakefileParser::run`, up to and including the call
`mProc->start(MAKE, a)`: the parser at that moment, and what the process is
started with. During the `waitForFinished()` that follows, the chunks of
standard output arrive (`processChunks`) and the end of the process is
signalled (`onDone`). -/
def MakefileParser.run {α σ : Type} (host : Host) (qt : QStrings σ) (s : MakefileParser α)
    (makefile : Path) (args : List ByteArray) :
    Except Abort (MakefileParser α × StartCall σ) :=
  match s.mProc with
  | some _ => .error .assertion
  | none =>
    let environment : Option (ByteArray × Path) :=
      if args.contains "-B".toList then none
      else if host.osMac then
        some ("DYLD_INSERT_LIBRARIES".toList,
          host.resolve (host.applicationDirPath ++ "/../makelib/libmakelib.dylib".toList))
      else
        some ("LD_PRELOAD".toList,
          host.resolve (host.applicationDirPath ++ "/../makelib/libmakelib.so".toList))
    let tracker := s.mTracker.init (host.parentDir makefile)
    match tracker.path with
    | .error e => .error e
    | .ok cwd =>
      .ok ({ s with mMakefile := makefile, mProc := some { state := .Starting },
                    mTracker := tracker },
           { environment := environment,
             unlinked := "/tmp/makelib.log".toList,
             program := qt.latin1 host.make,
             arguments :=
               [qt.latin1 "-j1".toList, qt.latin1 "-w".toList, qt.latin1 "-f".toList,
                qt.fromLocal8Bit makefile, qt.latin1 "-C".toList, qt.fromStdString cwd,
                qt.latin1 "AM_DEFAULT_VERBOSITY=1".toList, qt.latin1 "VERBOSE=1".toList]
               ++ args.map qt.fromStdString })

/-- A host for examples: a Linux build with the default `make`, installed in
`/opt/rtags/bin`, paths taken as resolved; the parent directory is the path up
to and including its last slash. -/
def linuxHost : Host :=
  { make := "make".toList, osMac := false, applicationDirPath := "/opt/rtags/bin".toList,
    resolve := fun p => p,
    parentDir := fun p => (p.reverse.dropWhile (fun c => c != '/')).reverse }

/-- Conversions for examples: a `QString` is the byte string it was made from. -/
def plainStrings : QStrings ByteArray :=
  { latin1 := fun b => b, fromLocal8Bit := fun b => b, fromStdString := fun b => b }

/-- Modelled from the spec: a `PrecompileEntry` (the members of `class Precompile`
are declared in `Precompile.h`, its methods are in `Precompile.cpp`, which is
missing from the sources): "signature, headerFilePath, accumulatedData,
dependencyFingerprints: mapping from file path to a change token,
translationUnit: optional opaque handle". -/
structure Precompile where
  signature : ByteArray
  headerFilePath : ByteArray
  accumulatedData : ByteArray
  dependencyFingerprints : List (Path × Nat)
  translationUnit : Option Nat
  deriving DecidableEq, Repr

/-- Modelled from the spec: the registry `s_precompiles` (the static functions of
`class Precompile` are in `Precompile.cpp`, which is missing from the sources):
a "mapping from signature to PrecompileEntry" with "at most one entry per
signature; enumeration order is insertion order". -/
abbrev Registry := List Precompile

namespace Registry

/-- Modelled from the spec: the entry just created for a signature
(`Precompile.cpp` is missing from the sources): "creation ... only allocates
bookkeeping; the expensive parse is deferred". -/
def fresh (sig : ByteArray) : Precompile :=
  { signature := sig, headerFilePath := [], accumulatedData := [],
    dependencyFingerprints := [], translationUnit := none }

/-- Modelled from the spec: the lookup of the entry registered for a signature
(`Precompile.cpp` is missing from the sources). -/
def entry (reg : Registry) (sig : ByteArray) : Option Precompile :=
  reg.find? (fun e => decide (e.signature = sig))

/-- Modelled from the spec: the place an entry has in the registry, which stands
for the identity of the entry instance (`Precompile.cpp` is missing from the
sources): "unique ownership of each entry", "at most one entry per signature".
The place is the position in insertion order of the entry registered for the
signature. -/
def slot : Registry → ByteArray → Option Nat
  | [], _ => none
  | e :: rest, sig => if e.signature = sig then some 0 else (slot rest sig).map (fun i => i + 1)

/-- Modelled from the spec: `Precompile::precompiler` (`Precompile.cpp` is missing
from the sources): "lookup-or-create. If an entry with this signature exists,
return it; otherwise construct a new entry, register it, and return it." The
result is the registry afterwards and the entry returned. -/
def precompiler (reg : Registry) (sig : ByteArray) : Registry × Precompile :=
  match reg.entry sig with
  | some e => (reg, e)
  | none => (reg ++ [fresh sig], fresh sig)

/-- Modelled from the spec: `Precompile::create` (`Precompile.cpp` is missing from
the sources): "stores the header path and fingerprints, overwriting any existing
entry for that signature". -/
def create (reg : Registry) (sig headerFilePath : ByteArray)
    (dependencyFingerprints : List (Path × Nat)) : Registry :=
  let created : Precompile :=
    { fresh sig with headerFilePath := headerFilePath,
                     dependencyFingerprints := dependencyFingerprints }
  match reg.entry sig with
  | some _ => reg.map (fun e => if e.signature = sig then created else e)
  | none => reg ++ [created]

/-- Modelled from the spec: `Precompile::precompiles` (`Precompile.cpp` is missing
from the sources): "returns all live entries, in insertion order". -/
def precompiles (reg : Registry) : List Precompile := reg

/-- Modelled from the spec: `Precompile::cleanup` (`Precompile.cpp` is missing from
the sources): "destroys every entry in the registry". -/
def cleanup (_reg : Registry) : Registry := []

end Registry

/-- A registry for examples, with entries for two signatures. -/
def twoEntries : Registry :=
  [{ signature := "gcc -O2|a.h".toList, headerFilePath := "/tmp/a.h".toList,
     accumulatedData := [], dependencyFingerprints := [("/src/a.h".toList, 7)],
     translationUnit := none },
   Registry.fresh "gcc -O2|b.h".toList]

/-- The text of a directory announcement: `make`, then `mid`, a colon and a
space, the verb, the word `directory`, and the directory between a backquote
and an apostrophe. -/
def announcementText (mid verb dir : ByteArray) : ByteArray :=
  "make".toList ++ (mid ++ (": ".toList ++ (verb ++ ((" directory ".toList ++ [backquote])
    ++ (dir ++ [apostrophe])))))

/-- A line with two announcements: a `Leaving` one first, then an `Entering`
one. -/
def leavingThenEntering : ByteArray :=
  "make: Leaving directory `/a' ".toList ++ announcementText [] "Entering".toList "/b".toList

/-- A session for examples whose stack is `/src`, `/src/lib`. -/
def sessionInLib : MakefileParser ByteArray :=
  { sessionAtSrc with
    mTracker := { mPaths := ["/src".toList, "/src/lib".toList], log := [] } }

/-- A resolver for examples: only `lib` resolves, and only against `/src`. -/
def resolveLibInSrc (dir : ByteArray) (cwd : Path) : Option Path :=
  if dir = "lib".toList ∧ cwd = "/src".toList then some "/src/lib".toList else none

/-- An `Entering` announcement with a relative directory. -/
def enteringRelative : ByteArray := "make[1]: Entering directory `lib'".toList

/-- The matching `Leaving` announcement. -/
def leavingRelative : ByteArray := "make[1]: Leaving directory `lib'".toList

/-- The first entry of `twoEntries`. -/
def entryForA : Precompile :=
  { signature := "gcc -O2|a.h".toList, headerFilePath := "/tmp/a.h".toList,
    accumulatedData := [], dependencyFingerprints := [("/src/a.h".toList, 7)],
    translationUnit := none }

/-! ## Theorems -/

example : indexIn "make[1]: Entering directory `/src/lib'".toList
    = some ("Entering".toList, "/src/lib".toList) := by decide
example : indexIn "cmake: Leaving directory `/x' and more".toList
    = some ("Leaving".toList, "/x".toList) := by decide
example : indexIn "gcc -Iinc -c foo.c -o foo.o".toList = none := by decide
example : indexIn "make: unknown-verb directory `/x'".toList
    = some ("unknown-verb".toList, "/x".toList) := by decide


/-- One step of `track` on a stack `base ++ ext` with a non-empty `base`, for a
line that leaves at most what `ext` holds. -/
theorem track_base (resolved : ByteArray → Path → Option Path) (t : DirectoryTracker)
    (line : ByteArray) (base ext : List Path) (hst : t.mPaths = base ++ ext)
    (hbase : base ≠ []) (hleave : isLeaving line = true → ext ≠ []) :
    (∃ t1 ext1, t.track resolved line = .ok t1 ∧ t1.mPaths = base ++ ext1 ∧
        ext1.length + (if isLeaving line then 1 else 0)
          = ext.length + (if isEntering line then 1 else 0)) ∨
    (∃ d c, t.track resolved line = .error (.fatal d c) ∧
        announcement line = some ("Entering".toList, d) ∧ resolved d c = none) := by
  unfold DirectoryTracker.track
  unfold isLeaving at hleave ⊢
  unfold isEntering
  unfold announcement at *
  cases hm : indexIn (cstr line) with
  | none => exact Or.inl ⟨t, ext, rfl, hst, by simp⟩
  | some vd =>
    obtain ⟨verb, dir⟩ := vd
    simp only [hm] at hleave
    by_cases hE : verb = "Entering".toList
    · subst hE
      have hne : ("Entering".toList = "Leaving".toList) = False := by decide
      simp only [if_true, hne, decide_False, decide_True]
      unfold DirectoryTracker.enterDirectory DirectoryTracker.path
      cases hl : t.mPaths.getLast? with
      | none =>
        rw [List.getLast?_eq_none_iff, hst] at hl
        simp [hbase] at hl
      | some cwd =>
        simp only []
        cases hr : resolved dir cwd with
        | none => exact Or.inr ⟨dir, cwd, rfl, rfl, hr⟩
        | some p =>
          refine Or.inl ⟨_, ext ++ [p], rfl, ?_, ?_⟩
          · simp [hst]
          · simp
    · by_cases hL : verb = "Leaving".toList
      · subst hL
        have hne : ("Leaving".toList = "Entering".toList) = False := by decide
        simp only [hne, if_false, if_true, decide_False, decide_True]
        have hext : ext ≠ [] := hleave (by simp)
        unfold DirectoryTracker.leaveDirectory
        cases hp : t.mPaths with
        | nil => rw [hst] at hp; simp [hbase] at hp
        | cons a as =>
          refine Or.inl ⟨_, ext.dropLast, rfl, ?_, ?_⟩
          · simp only []
            rw [← hp, hst, List.dropLast_append_of_ne_nil _ hext]
          · have := List.length_pos_of_ne_nil hext
            simp only [List.length_dropLast, if_true, if_false,
              Bool.false_eq_true]
            omega
      · simp only [hE, hL, if_false, decide_False]
        exact Or.inl ⟨_, ext, rfl, hst, by simp⟩

/-- A line is not both an `Entering` and a `Leaving` announcement. -/
theorem isEntering_of_isLeaving (line : ByteArray) (h : isLeaving line = true) :
    isEntering line = false := by
  unfold isLeaving at h
  unfold isEntering
  cases hm : announcement line with
  | none => rfl
  | some vd =>
    obtain ⟨verb, dir⟩ := vd
    simp only [hm, decide_eq_true_eq] at h
    subst h
    simp only [decide_eq_false_iff_not]
    decide

/-- The first line of a well-nested sequence leaves only if there is slack. -/
theorem WellNested.head {slack : Nat} {line : ByteArray} {lines : List ByteArray}
    (h : WellNested slack (line :: lines)) (hl : isLeaving line = true) : 0 < slack := by
  have h1 := h 1
  have hE := isEntering_of_isLeaving line hl
  simp [countLeaving, countEntering, List.countP_cons, hl, hE] at h1
  omega

/-- The rest of a well-nested sequence is well nested for the slack left by its
first line. -/
theorem WellNested.tail {slack slack1 : Nat} {line : ByteArray} {lines : List ByteArray}
    (h : WellNested slack (line :: lines))
    (hs : slack1 + (if isLeaving line then 1 else 0)
      = slack + (if isEntering line then 1 else 0)) :
    WellNested slack1 lines := by
  intro k
  have hk := h (k + 1)
  simp only [countLeaving, countEntering, List.take_succ_cons, List.countP_cons] at hk ⊢
  omega

/-- A prefix of a well-nested sequence is well nested. -/
theorem WellNested.take {slack : Nat} {lines : List ByteArray}
    (h : WellNested slack lines) (n : Nat) : WellNested slack (lines.take n) := by
  intro k
  rw [List.take_take]
  exact h (min k n)

/-- Tracking a well-nested sequence from a stack `base ++ ext` never touches
`base`: it ends with `base ++ ext1`, or aborts on an `Entering` directory
that does not resolve. -/
theorem trackAll_base (resolved : ByteArray → Path → Option Path) (base : List Path)
    (hbase : base ≠ []) (lines : List ByteArray) :
    ∀ (t : DirectoryTracker) (ext : List Path), t.mPaths = base ++ ext →
      WellNested ext.length lines →
      (∃ t1 ext1, DirectoryTracker.trackAll resolved t lines = .ok t1 ∧
          t1.mPaths = base ++ ext1 ∧
          ext1.length + countLeaving lines = ext.length + countEntering lines) ∨
      (∃ d c, DirectoryTracker.trackAll resolved t lines = .error (.fatal d c) ∧
          ∃ l ∈ lines, announcement l = some ("Entering".toList, d) ∧
            resolved d c = none) := by
  induction lines with
  | nil =>
    intro t ext hst _
    exact Or.inl ⟨t, ext, rfl, hst, rfl⟩
  | cons line lines ih =>
    intro t ext hst hn
    have hleave : isLeaving line = true → ext ≠ [] := fun hl =>
      List.ne_nil_of_length_pos (hn.head hl)
    rcases track_base resolved t line base ext hst hbase hleave with
      ⟨t1, ext1, hstep, hst1, hlen⟩ | ⟨d, c, hstep, hann, hres⟩
    · rcases ih t1 ext1 hst1 (hn.tail hlen) with
        ⟨t2, ext2, hrun, hst2, hlen2⟩ | ⟨d, c, hrun, l, hl, hann, hres⟩
      · refine Or.inl ⟨t2, ext2, ?_, hst2, ?_⟩
        · simp only [DirectoryTracker.trackAll, hstep, hrun]
        · simp only [countLeaving, countEntering, List.countP_cons] at hlen2 ⊢
          omega
      · refine Or.inr ⟨d, c, ?_, l, List.mem_cons_of_mem _ hl, hann, hres⟩
        simp only [DirectoryTracker.trackAll, hstep, hrun]
    · refine Or.inr ⟨d, c, ?_, line, List.mem_cons_self _ _, hann, hres⟩
      simp only [DirectoryTracker.trackAll, hstep]

/-- Well-nestedness only needs checking on the prefixes up to the length. -/
theorem wellNested_of_bounded {slack : Nat} {lines : List ByteArray}
    (h : ∀ k, k ≤ lines.length →
      countLeaving (lines.take k) ≤ slack + countEntering (lines.take k)) :
    WellNested slack lines := by
  intro k
  by_cases hk : k ≤ lines.length
  · exact h k hk
  · rw [List.take_of_length_le (by omega)]
    have := h lines.length (le_refl _)
    rwa [List.take_length] at this

/-- C1 (counterexample): after `init("/src")`, the single line
"make: Leaving directory [/src]" is tracked without any abort and pops the root
entry: the stack is empty afterwards and `path()` has no defined result. -/
theorem leaving_at_root_empties_stack :
    (DirectoryTracker.trackAll resolveAbsolute (DirectoryTracker.new.init "/src".toList)
        ["make: Leaving directory `/src'".toList]
      = .ok { mPaths := [], log := [.verboseDebug "/src".toList] }) ∧
    (DirectoryTracker.path { mPaths := [], log := [.verboseDebug "/src".toList] }
      = .error .undefinedBehaviour) := by
  constructor
  · decide
  · decide

/-- C1 (amended): for every root path and every sequence of lines in which no
prefix has more `Leaving` than `Entering` announcements, after `init(root)` and
any number `k` of the lines the stack is non-empty with `root` as its bottom
entry and `path()` is defined, unless tracking was aborted by an `Entering`
directory of these lines that does not resolve; no call without a defined
result is made. -/
theorem root_stays_at_bottom (resolved : ByteArray → Path → Option Path) (root : Path)
    (lines : List ByteArray) (hn : WellNested 0 lines) (k : Nat) :
    (∃ t rest p,
        DirectoryTracker.trackAll resolved (DirectoryTracker.new.init root) (lines.take k)
          = .ok t ∧
        t.mPaths = root :: rest ∧ t.path = .ok p) ∨
    (∃ d c,
        DirectoryTracker.trackAll resolved (DirectoryTracker.new.init root) (lines.take k)
          = .error (.fatal d c) ∧
        ∃ l ∈ lines.take k, announcement l = some ("Entering".toList, d) ∧
          resolved d c = none) := by
  rcases trackAll_base resolved [root] (by simp) (lines.take k)
      (DirectoryTracker.new.init root) []
      (by simp [DirectoryTracker.new, DirectoryTracker.init]) (hn.take k) with
    ⟨t, ext, hrun, hst, _⟩ | h
  · left
    have hne : t.mPaths ≠ [] := by simp [hst]
    cases hl : t.mPaths.getLast? with
    | none => exact absurd (List.getLast?_eq_none_iff.mp hl) hne
    | some p =>
      refine ⟨t, ext, p, hrun, by simpa using hst, ?_⟩
      simp only [DirectoryTracker.path, hl]
  · exact Or.inr h

/-- C1 (amended), at a concrete input: a sub-build is entered and left again. -/
theorem root_stays_at_bottom_witness :
    (∃ t rest p, DirectoryTracker.trackAll resolveAbsolute
          (DirectoryTracker.new.init "/src".toList) ([enteringLib, leavingLib].take 1) = .ok t ∧
        t.mPaths = "/src".toList :: rest ∧ t.path = .ok p) ∨
    (∃ d c, DirectoryTracker.trackAll resolveAbsolute
          (DirectoryTracker.new.init "/src".toList) ([enteringLib, leavingLib].take 1)
          = .error (.fatal d c) ∧
        ∃ l ∈ [enteringLib, leavingLib].take 1,
          announcement l = some ("Entering".toList, d) ∧ resolveAbsolute d c = none) :=
  root_stays_at_bottom resolveAbsolute "/src".toList [enteringLib, leavingLib]
    (wellNested_of_bounded (by decide)) 1

/-- A fatal abort of `track` is an `Entering` announcement whose directory does
not resolve against the current path. -/
theorem track_fatal (resolved : ByteArray → Path → Option Path) (t : DirectoryTracker)
    (line d : ByteArray) (c : Path) (h : t.track resolved line = .error (.fatal d c)) :
    announcement line = some ("Entering".toList, d) ∧ t.path = .ok c ∧
      resolved d c = none := by
  unfold DirectoryTracker.track at h
  unfold announcement
  cases hm : indexIn (cstr line) with
  | none => simp [hm] at h
  | some vd =>
    obtain ⟨verb, dir⟩ := vd
    simp only [hm] at h
    by_cases hE : verb = "Entering".toList
    · subst hE
      simp only [if_true] at h
      unfold DirectoryTracker.enterDirectory at h
      cases hp : t.path with
      | error e =>
        simp only [hp] at h
        unfold DirectoryTracker.path at hp
        cases hl : t.mPaths.getLast? with
        | none =>
          simp only [hl] at hp
          cases hp
          cases h
        | some p => simp [hl] at hp
      | ok cwd =>
        simp only [hp] at h
        cases hr : resolved dir cwd with
        | some p => simp [hr] at h
        | none =>
          simp only [hr] at h
          cases h
          exact ⟨rfl, rfl, hr⟩
    · simp only [hE, if_false] at h
      by_cases hL : verb = "Leaving".toList
      · simp only [hL, if_true] at h
        unfold DirectoryTracker.leaveDirectory at h
        cases hs : t.mPaths with
        | nil => simp [hs] at h
        | cons a as => simp [hs] at h
      · simp only [hL, if_false] at h
        cases h

/-- A fatal abort of `trackAll` happens at a line that is an `Entering`
announcement whose directory does not resolve against the path reached when the
lines before it have been tracked. -/
theorem trackAll_fatal_point (resolved : ByteArray → Path → Option Path)
    (lines : List ByteArray) (t : DirectoryTracker) (d : ByteArray) (c : Path)
    (h : DirectoryTracker.trackAll resolved t lines = .error (.fatal d c)) :
    ∃ k tk l, DirectoryTracker.trackAll resolved t (lines.take k) = .ok tk ∧
      lines[k]? = some l ∧ announcement l = some ("Entering".toList, d) ∧
      tk.path = .ok c ∧ resolved d c = none := by
  induction lines generalizing t with
  | nil => simp [DirectoryTracker.trackAll] at h
  | cons line lines ih =>
    simp only [DirectoryTracker.trackAll] at h
    cases hstep : t.track resolved line with
    | error e =>
      simp only [hstep] at h
      cases h
      obtain ⟨hann, hp, hr⟩ := track_fatal resolved t line d c hstep
      exact ⟨0, t, line, rfl, by simp, hann, hp, hr⟩
    | ok t1 =>
      simp only [hstep] at h
      obtain ⟨k, tk, l, hrun, hl, hann, hp, hr⟩ := ih t1 h
      refine ⟨k + 1, tk, l, ?_, ?_, hann, hp, hr⟩
      · simp only [List.take_succ_cons, DirectoryTracker.trackAll, hstep, hrun]
      · simpa using hl

/-- C2: for every initialised tracker (non-empty stack) and every well-formed
nested sequence of lines in which each `Entering` directory resolves against
the path it meets (the top of the stack when the lines before it have been
tracked), tracking the sequence succeeds, the final depth plus the number of
`Leaving` lines equals the initial depth plus the number of `Entering` lines,
and after a balanced sequence (a matched pair in particular) the whole stack
and `path()` are what they were before. -/
theorem nested_depth (resolved : ByteArray → Path → Option Path) (t : DirectoryTracker)
    (lines : List ByteArray) (hinit : t.mPaths ≠ []) (hn : WellNested 0 lines)
    (hres : ∀ (k : Nat) (tk : DirectoryTracker) (l d : ByteArray) (cwd : Path),
      DirectoryTracker.trackAll resolved t (lines.take k) = .ok tk → lines[k]? = some l →
      announcement l = some ("Entering".toList, d) → tk.path = .ok cwd →
      resolved d cwd ≠ none) :
    ∃ t1, DirectoryTracker.trackAll resolved t lines = .ok t1 ∧
      t1.mPaths.length + countLeaving lines = t.mPaths.length + countEntering lines ∧
      (countLeaving lines = countEntering lines →
        t1.mPaths = t.mPaths ∧ t1.path = t.path) := by
  rcases trackAll_base resolved t.mPaths hinit lines t [] (by simp) hn with
    ⟨t1, ext, hrun, hst, hlen⟩ | ⟨d, c, hfatal, _⟩
  · refine ⟨t1, hrun, ?_, ?_⟩
    · rw [hst, List.length_append]
      simp only [List.length_nil] at hlen
      omega
    · intro hbal
      have hext : ext = [] := by
        apply List.eq_nil_of_length_eq_zero
        simp only [List.length_nil] at hlen
        omega
      subst hext
      have hp : t1.mPaths = t.mPaths := by simpa using hst
      exact ⟨hp, by simp only [DirectoryTracker.path, hp]⟩
  · obtain ⟨k, tk, l, hrun, hl, hann, hp, hr⟩ :=
      trackAll_fatal_point resolved lines t d c hfatal
    exact absurd hr (hres k tk l d c hrun hl hann hp)

/-- C2, at a concrete input: entering and leaving the relative directory `lib`
from `/src`, with a resolver for which `lib` resolves against `/src` only. -/
theorem nested_depth_witness :
    ∃ t1, DirectoryTracker.trackAll resolveLibInSrc
        (DirectoryTracker.new.init "/src".toList) [enteringRelative, leavingRelative]
          = .ok t1 ∧
      t1.mPaths.length + countLeaving [enteringRelative, leavingRelative]
        = (DirectoryTracker.new.init "/src".toList).mPaths.length
          + countEntering [enteringRelative, leavingRelative] ∧
      (countLeaving [enteringRelative, leavingRelative]
          = countEntering [enteringRelative, leavingRelative] →
        t1.mPaths = (DirectoryTracker.new.init "/src".toList).mPaths ∧
        t1.path = (DirectoryTracker.new.init "/src".toList).path) :=
  nested_depth resolveLibInSrc (DirectoryTracker.new.init "/src".toList)
    [enteringRelative, leavingRelative] (by decide) (wellNested_of_bounded (by decide))
    (by
      intro k tk l d cwd hrun hl hann hp
      match k with
      | 0 =>
        simp only [List.take_zero, DirectoryTracker.trackAll, Except.ok.injEq] at hrun
        subst hrun
        simp only [List.getElem?_cons_zero, Option.some.injEq] at hl
        subst hl
        have ha : announcement enteringRelative
            = some ("Entering".toList, "lib".toList) := by decide
        rw [ha] at hann
        have hd : d = "lib".toList := (Prod.mk.inj (Option.some.inj hann)).2.symm
        have hc : cwd = "/src".toList := by
          have : (DirectoryTracker.new.init "/src".toList).path = .ok "/src".toList := by
            decide
          rw [this] at hp
          exact (Except.ok.inj hp).symm
        subst hd hc
        decide
      | 1 =>
        simp only [List.getElem?_cons_succ, List.getElem?_cons_zero,
          Option.some.injEq] at hl
        subst hl
        have ha : announcement leavingRelative
            = some ("Leaving".toList, "lib".toList) := by decide
        rw [ha] at hann
        exact absurd (Prod.mk.inj (Option.some.inj hann)).1 (by decide)
      | n + 2 => simp at hl)

example :
    (DirectoryTracker.trackAll resolveLibInSrc (DirectoryTracker.new.init "/src".toList)
        [enteringRelative, leavingRelative]).map (fun t => t.mPaths)
      = .ok ["/src".toList] := by decide

example : resolveLibInSrc "lib".toList "/src/lib".toList = none := by decide

/-- C3: for every session state whose tracker has a current path and every line
the invocation parser accepts for that path, `processMakeLine` succeeds and
leaves the tracker (stack and log) exactly as it was, whatever the line
contains; `track` is not called for it. -/
theorem accepted_line_keeps_tracker {α : Type} (env : Collaborators α)
    (s : MakefileParser α) (line : ByteArray) (cwd : Path) (parsed : α)
    (hcwd : s.mTracker.path = .ok cwd) (hparse : env.parse line cwd = some parsed) :
    ∃ s1, s.processMakeLine env line = .ok s1 ∧ s1.mTracker = s.mTracker := by
  unfold MakefileParser.processMakeLine
  simp only [hcwd, hparse]
  split
  · exact ⟨_, rfl, rfl⟩
  · exact ⟨_, rfl, rfl⟩

/-- C3, at a concrete input: a line that matches the announcement pattern and is
accepted by the parser leaves the stack at `/src`. -/
theorem accepted_line_keeps_tracker_witness :
    announcement enteringLib = some ("Entering".toList, "/src/lib".toList) ∧
    ∃ s1, sessionAtSrc.processMakeLine acceptAll enteringLib = .ok s1 ∧
      s1.mTracker = sessionAtSrc.mTracker :=
  ⟨by decide,
   accepted_line_keeps_tracker acceptAll sessionAtSrc enteringLib "/src".toList
     enteringLib (by decide) rfl⟩

/-- The loop of `mapPchToInput` appends to what it has collected. -/
theorem mapPchToInput_fold (m : PchMap) (input : List ByteArray) (acc : List ByteArray) :
    input.foldl
        (fun output candidate =>
          match m.find candidate with
          | some header => output ++ [header]
          | none => output)
        acc
      = acc ++ input.filterMap m.find := by
  induction input generalizing acc with
  | nil => simp
  | cons c cs ih =>
    rw [List.foldl_cons, ih, List.filterMap_cons]
    cases m.find c with
    | none => rfl
    | some h => simp

/-- C6: for every alias table and every candidate list, `mapPchToInput` returns
the recorded input headers of the candidates that have an entry, in the order of
the candidate list with duplicates kept, and skips the candidates without an
entry. The method only reads the table. -/
theorem mapPchToInput_eq_filterMap {α : Type} (s : MakefileParser α)
    (input : List ByteArray) :
    s.mapPchToInput input = input.filterMap s.mPchs.find := by
  unfold MakefileParser.mapPchToInput
  rw [mapPchToInput_fold]
  rfl

/-- C7: for every tracker with a current path and every `Entering` announcement
whose directory does not resolve against that path, `track` ends in the fatal
abort: no tracker state results, so nothing is pushed. -/
theorem entering_unresolved_aborts (resolved : ByteArray → Path → Option Path)
    (t : DirectoryTracker) (line dir : ByteArray) (cwd : Path)
    (hann : announcement line = some ("Entering".toList, dir))
    (htop : t.path = .ok cwd) (hres : resolved dir cwd = none) :
    t.track resolved line = .error (.fatal dir cwd) := by
  unfold announcement at hann
  unfold DirectoryTracker.track
  simp only [hann, if_true]
  unfold DirectoryTracker.enterDirectory
  simp only [htop, hres]

/-- C7, at a concrete input: a relative directory that the resolver rejects. -/
theorem entering_unresolved_aborts_witness :
    (DirectoryTracker.new.init "/src".toList).track resolveAbsolute
        "make: Entering directory `lib'".toList
      = .error (.fatal "lib".toList "/src".toList) :=
  entering_unresolved_aborts resolveAbsolute (DirectoryTracker.new.init "/src".toList)
    "make: Entering directory `lib'".toList "lib".toList "/src".toList
    (by decide) (by decide) (by decide)

/-- C8: for every tracker state and every line, if the line does not match the
announcement pattern, `track` returns the tracker as it was (same stack, nothing
logged); if it matches with a verb other than `Entering` and `Leaving`, `track`
logs one error report with the verb and the directory and leaves the stack
unchanged. -/
theorem track_noise_or_unknown_verb (resolved : ByteArray → Path → Option Path)
    (t : DirectoryTracker) (line : ByteArray) :
    (announcement line = none → t.track resolved line = .ok t) ∧
    (∀ verb dir, announcement line = some (verb, dir) →
      verb ≠ "Entering".toList → verb ≠ "Leaving".toList →
      t.track resolved line
        = .ok { mPaths := t.mPaths, log := t.log ++ [.error verb dir] }) := by
  unfold announcement DirectoryTracker.track
  constructor
  · intro h
    simp only [h]
  · intro verb dir h hE hL
    simp only [h, hE, hL, if_false]

/-- C8, at concrete inputs: a compiler command line is ignored, and the line
"make: unknown-verb directory [/x]" is reported without touching the stack. -/
theorem track_noise_or_unknown_verb_witness :
    (DirectoryTracker.new.init "/src".toList).track resolveAbsolute
        "gcc -Iinc -c foo.c -o foo.o".toList
      = .ok (DirectoryTracker.new.init "/src".toList) ∧
    (DirectoryTracker.new.init "/src".toList).track resolveAbsolute
        "make: unknown-verb directory `/x'".toList
      = .ok { mPaths := ["/src".toList],
              log := [.error "unknown-verb".toList "/x".toList] } :=
  ⟨(track_noise_or_unknown_verb resolveAbsolute (DirectoryTracker.new.init "/src".toList)
      "gcc -Iinc -c foo.c -o foo.o".toList).1 (by decide),
   (track_noise_or_unknown_verb resolveAbsolute (DirectoryTracker.new.init "/src".toList)
      "make: unknown-verb directory `/x'".toList).2 "unknown-verb".toList "/x".toList
      (by decide) (by decide) (by decide)⟩

/-- C9: for every tracker whose stack has the top entry `cwd` and every
`Entering` announcement whose directory `dir` resolves against `cwd` to
`newPath`, `track` succeeds and pushes exactly `newPath`: the previous entries
are unchanged below it, the depth grows by one and `path()` is `newPath`. -/
theorem entering_pushes_resolved (resolved : ByteArray → Path → Option Path)
    (t : DirectoryTracker) (line dir : ByteArray) (cwd newPath : Path)
    (hann : announcement line = some ("Entering".toList, dir))
    (htop : t.mPaths.getLast? = some cwd) (hres : resolved dir cwd = some newPath) :
    ∃ t1, t.track resolved line = .ok t1 ∧ t1.mPaths = t.mPaths ++ [newPath] ∧
      t1.mPaths.length = t.mPaths.length + 1 ∧ t1.path = .ok newPath := by
  unfold announcement at hann
  unfold DirectoryTracker.track
  simp only [hann, if_true]
  unfold DirectoryTracker.enterDirectory
  simp only [DirectoryTracker.path, htop, hres]
  refine ⟨_, rfl, rfl, by simp, ?_⟩
  simp [DirectoryTracker.path]

/-- C9, at a concrete input: a relative directory announced at depth 2 is
resolved against the top `/src/lib`, not against the root `/src`. -/
theorem entering_pushes_resolved_witness :
    ∃ t1, DirectoryTracker.track resolveRelative
          { mPaths := ["/src".toList, "/src/lib".toList], log := [] }
          "make[2]: Entering directory `sub'".toList = .ok t1 ∧
      t1.mPaths = ["/src".toList, "/src/lib".toList] ++ ["/src/lib/sub".toList] ∧
      t1.mPaths.length = ["/src".toList, "/src/lib".toList].length + 1 ∧
      t1.path = .ok "/src/lib/sub".toList :=
  entering_pushes_resolved resolveRelative
    { mPaths := ["/src".toList, "/src/lib".toList], log := [] }
    "make[2]: Entering directory `sub'".toList "sub".toList "/src/lib".toList
    "/src/lib/sub".toList (by decide) (by decide) (by decide)

/-- C10: for every tracker and every `Leaving` announcement, `track` removes
exactly the top entry of a non-empty stack and leaves the entries below it
unchanged; the resulting stack does not depend on the announced directory: two
`Leaving` lines naming any two directories give the same stack. -/
theorem leaving_pops_top (resolved : ByteArray → Path → Option Path)
    (t : DirectoryTracker) (line1 line2 dir1 dir2 : ByteArray)
    (h1 : announcement line1 = some ("Leaving".toList, dir1))
    (h2 : announcement line2 = some ("Leaving".toList, dir2)) :
    (∀ below top, t.mPaths = below ++ [top] →
      ∃ t1, t.track resolved line1 = .ok t1 ∧ t1.mPaths = below) ∧
    (t.track resolved line1).map (fun t1 => t1.mPaths)
      = (t.track resolved line2).map (fun t1 => t1.mPaths) := by
  unfold announcement at h1 h2
  unfold DirectoryTracker.track
  have hne : ("Leaving".toList = "Entering".toList) = False := by decide
  simp only [h1, h2, hne, if_false, if_true]
  unfold DirectoryTracker.leaveDirectory
  constructor
  · intro below top hst
    cases hp : t.mPaths with
    | nil => rw [hst] at hp; simp at hp
    | cons a as =>
      refine ⟨_, rfl, ?_⟩
      simp only []
      rw [← hp, hst, List.dropLast_concat]
  · cases t.mPaths with
    | nil => rfl
    | cons a as => rfl

/-- C10, at a concrete input: leaving with the name of a directory that is not
on the stack pops `/src/lib` all the same. -/
theorem leaving_pops_top_witness :
    (∀ below top, ["/src".toList, "/src/lib".toList] = below ++ [top] →
      ∃ t1, DirectoryTracker.track resolveAbsolute
          { mPaths := ["/src".toList, "/src/lib".toList], log := [] } leavingLib = .ok t1 ∧
        t1.mPaths = below) ∧
    (DirectoryTracker.track resolveAbsolute
        { mPaths := ["/src".toList, "/src/lib".toList], log := [] } leavingLib).map
        (fun t1 => t1.mPaths)
      = (DirectoryTracker.track resolveAbsolute
          { mPaths := ["/src".toList, "/src/lib".toList], log := [] }
          "make: Leaving directory `/elsewhere'".toList).map (fun t1 => t1.mPaths) :=
  leaving_pops_top resolveAbsolute
    { mPaths := ["/src".toList, "/src/lib".toList], log := [] }
    leavingLib "make: Leaving directory `/elsewhere'".toList
    "/src/lib".toList "/elsewhere".toList (by decide) (by decide)

/-- Without a newline there is no complete line. -/
theorem segments_of_indexOf_none (data : ByteArray) (h : indexOf newline data = none) :
    segments data = ([], data) := by
  induction data with
  | nil => rfl
  | cons c cs ih =>
    unfold indexOf at h
    by_cases hc : c = newline
    · simp [hc] at h
    · simp only [hc, if_false, Option.map_eq_none'] at h
      simp only [segments, hc, if_false, ih h]

/-- The first newline ends the first segment; the rest is split the same
way. -/
theorem segments_of_indexOf_some (data : ByteArray) (n : Nat)
    (h : indexOf newline data = some n) :
    n < data.length ∧
    segments data
      = (left data n :: (segments (mid data (n + 1))).1, (segments (mid data (n + 1))).2) := by
  induction data generalizing n with
  | nil => simp [indexOf] at h
  | cons c cs ih =>
    unfold indexOf at h
    by_cases hc : c = newline
    · simp only [hc, if_true, Option.some.injEq] at h
      subst h
      simp [segments, hc, left, mid]
    · simp only [hc, if_false, Option.map_eq_some'] at h
      obtain ⟨m, hm, rfl⟩ := h
      obtain ⟨hlt, hseg⟩ := ih m hm
      constructor
      · simp only [List.length_cons]; omega
      · simp only [segments, hc, if_false, hseg, left, mid, List.take_succ_cons,
          List.drop_succ_cons]

/-- The segments and the remainder make up the byte string, and none of them
contains a newline. -/
theorem segments_spec (data : ByteArray) :
    data = ((segments data).1.map (fun l => l ++ [newline])).flatten ++ (segments data).2 ∧
    (∀ l ∈ (segments data).1, newline ∉ l) ∧ newline ∉ (segments data).2 := by
  induction data with
  | nil => simp [segments]
  | cons c cs ih =>
    obtain ⟨h1, h2, h3⟩ := ih
    by_cases hc : c = newline
    · simp only [segments, hc, if_true]
      refine ⟨?_, ?_, h3⟩
      · simp only [List.map_cons, List.flatten_cons, List.nil_append, List.singleton_append,
          List.cons_append]
        rw [← h1]
      · intro l hl
        rcases List.mem_cons.mp hl with h | h
        · subst h; simp
        · exact h2 l h
    · simp only [segments, hc, if_false]
      cases hs : (segments cs).1 with
      | nil =>
        simp only [hs] at h1 h2
        refine ⟨?_, by simp, ?_⟩
        · simp only [List.map_nil, List.flatten_nil, List.nil_append] at h1 ⊢
          rw [← h1]
        · simp only [List.mem_cons, not_or]
          exact ⟨fun h => hc h.symm, h3⟩
      | cons l ls =>
        simp only [hs] at h1 h2
        refine ⟨?_, ?_, h3⟩
        · simp only [List.map_cons, List.flatten_cons, List.cons_append] at h1 ⊢
          rw [← h1]
        · intro x hx
          rcases List.mem_cons.mp hx with h | h
          · subst h
            simp only [List.mem_cons, not_or]
            exact ⟨fun h => hc h.symm, h2 l (List.mem_cons_self _ _)⟩
          · exact h2 x (List.mem_cons_of_mem _ h)

/-- A newline at the front closes an empty segment. -/
theorem segments_cons_newline (cs : ByteArray) :
    segments (newline :: cs) = ([] :: (segments cs).1, (segments cs).2) := by
  simp only [segments, if_true]

/-- Another byte at the front joins the first segment, or the remainder when
there is no segment. -/
theorem segments_cons_other (c : Char) (cs : ByteArray) (hc : c ≠ newline) :
    segments (c :: cs)
      = match (segments cs).1 with
        | [] => ([], c :: (segments cs).2)
        | l :: ls => ((c :: l) :: ls, (segments cs).2) := by
  simp only [segments, hc, if_false]

/-- Bytes appended to a byte string extend its remainder only. -/
theorem segments_append (data more : ByteArray) :
    segments (data ++ more)
      = ((segments data).1 ++ (segments ((segments data).2 ++ more)).1,
         (segments ((segments data).2 ++ more)).2) := by
  induction data with
  | nil => simp [segments]
  | cons c cs ih =>
    rw [List.cons_append]
    by_cases hc : c = newline
    · subst hc
      rw [segments_cons_newline, segments_cons_newline, ih]
      rfl
    · rw [segments_cons_other c _ hc, segments_cons_other c cs hc, ih]
      cases hs : (segments cs).1 with
      | nil =>
        simp only [List.nil_append]
        rw [List.cons_append, segments_cons_other c _ hc]
      | cons l ls => rfl

/-- The outcome of `processMakeLine` does not depend on the buffer, and the
buffer is left alone. -/
theorem processMakeLine_withData {α : Type} (env : Collaborators α)
    (s : MakefileParser α) (data line : ByteArray) :
    (s.withData data).processMakeLine env line
      = (s.processMakeLine env line).map (fun s1 => s1.withData data) := by
  unfold MakefileParser.processMakeLine MakefileParser.withData
  cases s.mTracker.path with
  | error e => rfl
  | ok cwd =>
    simp only []
    cases env.parse line cwd with
    | some parsed =>
      simp only []
      split <;> rfl
    | none =>
      simp only []
      cases s.mTracker.track env.resolved line with
      | error e => rfl
      | ok t => rfl

/-- A dispatched line leaves the buffer and the process handle as they were. -/
theorem processMakeLine_frame {α : Type} (env : Collaborators α)
    (s s1 : MakefileParser α) (line : ByteArray)
    (h : s.processMakeLine env line = .ok s1) :
    s1.mData = s.mData ∧ s1.mProc = s.mProc := by
  unfold MakefileParser.processMakeLine at h
  cases hp : s.mTracker.path with
  | error e => simp [hp] at h
  | ok cwd =>
    simp only [hp] at h
    cases hparse : env.parse line cwd with
    | some parsed =>
      simp only [hparse] at h
      split at h
      · cases h; exact ⟨rfl, rfl⟩
      · cases h; exact ⟨rfl, rfl⟩
    | none =>
      simp only [hparse] at h
      cases ht : s.mTracker.track env.resolved line with
      | error e => simp [ht] at h
      | ok t =>
        simp only [ht] at h
        cases h; exact ⟨rfl, rfl⟩

/-- The outcome of dispatching lines does not depend on the buffer. -/
theorem processLines_withData {α : Type} (env : Collaborators α)
    (lines : List ByteArray) (s : MakefileParser α) (data : ByteArray) :
    (s.withData data).processLines env lines
      = (s.processLines env lines).map (fun s1 => s1.withData data) := by
  induction lines generalizing s with
  | nil => rfl
  | cons line lines ih =>
    simp only [MakefileParser.processLines, processMakeLine_withData]
    cases s.processMakeLine env line with
    | error e => rfl
    | ok s1 => exact ih s1

/-- Dispatching lines leaves the process handle as it was. -/
theorem processLines_mProc {α : Type} (env : Collaborators α)
    (lines : List ByteArray) (s s1 : MakefileParser α)
    (h : s.processLines env lines = .ok s1) : s1.mProc = s.mProc := by
  induction lines generalizing s with
  | nil =>
    simp only [MakefileParser.processLines] at h
    cases h; rfl
  | cons line lines ih =>
    simp only [MakefileParser.processLines] at h
    cases hstep : s.processMakeLine env line with
    | error e => simp [hstep] at h
    | ok s2 =>
      simp only [hstep] at h
      rw [ih s2 h, (processMakeLine_frame env s s2 line hstep).2]

/-- Dispatching two sequences one after the other is dispatching their
concatenation. -/
theorem processLines_append {α : Type} (env : Collaborators α)
    (lines1 lines2 : List ByteArray) (s : MakefileParser α) :
    s.processLines env (lines1 ++ lines2)
      = match s.processLines env lines1 with
        | .error e => .error e
        | .ok s1 => s1.processLines env lines2 := by
  induction lines1 generalizing s with
  | nil => rfl
  | cons line lines ih =>
    simp only [List.cons_append, MakefileParser.processLines]
    cases s.processMakeLine env line with
    | error e => rfl
    | ok s1 => exact ih s1

/-- With more steps than bytes in the buffer, the loop of `processMakeOutput`
dispatches the segments of the buffer in order and keeps the remainder; it does
not run out of steps. -/
theorem processMakeOutputLoop_eq {α : Type} (env : Collaborators α) (fuel : Nat) :
    ∀ s : MakefileParser α, s.mData.length < fuel →
      MakefileParser.processMakeOutputLoop env fuel s
        = (s.processLines env (segments s.mData).1).map
            (fun s1 => s1.withData (segments s.mData).2) := by
  induction fuel with
  | zero => intro s h; omega
  | succ fuel ih =>
    intro s hlen
    unfold MakefileParser.processMakeOutputLoop
    cases hidx : indexOf newline s.mData with
    | none =>
      simp only [segments_of_indexOf_none _ hidx, MakefileParser.processLines]
      rfl
    | some n =>
      obtain ⟨hn, hseg⟩ := segments_of_indexOf_some _ n hidx
      simp only [hseg, MakefileParser.processLines]
      cases hstep : s.processMakeLine env (left s.mData n) with
      | error e => rfl
      | ok s1 =>
        simp only []
        have hd : s1.mData = s.mData := (processMakeLine_frame env s s1 _ hstep).1
        have hlen1 : ({ s1 with mData := mid s1.mData (n + 1) } : MakefileParser α).mData.length
            < fuel := by
          simp only [hd, mid, List.length_drop]
          omega
        rw [ih _ hlen1]
        simp only [hd]
        have := processLines_withData env (segments (mid s.mData (n + 1))).1 s1
          (mid s.mData (n + 1))
        simp only [MakefileParser.withData] at this ⊢
        rw [this]
        cases s1.processLines env (segments (mid s.mData (n + 1))).1 with
        | error e => rfl
        | ok s2 => rfl

/-- A byte string without a newline has no segment. -/
theorem segments_of_not_mem (data : ByteArray) (h : newline ∉ data) :
    segments data = ([], data) := by
  induction data with
  | nil => rfl
  | cons c cs ih =>
    simp only [List.mem_cons, not_or] at h
    rw [segments_cons_other c cs (fun hc => h.1 hc.symm), ih h.2]

/-- A byte string without a zero byte is read whole as a C string. -/
theorem cstr_of_not_mem (b : ByteArray) (h : nul ∉ b) : cstr b = b := by
  unfold cstr
  rw [List.takeWhile_eq_self_iff]
  intro c hc
  simp only [bne_iff_ne, ne_eq]
  intro hn
  exact h (hn ▸ hc)

/-- One call of `processMakeOutput` dispatches the segments of the buffer
followed by the C-string reading of the chunk, and keeps the remainder. -/
theorem processMakeOutput_eq {α : Type} (env : Collaborators α) (s : MakefileParser α)
    (chunk : ByteArray) (hproc : s.mProc ≠ none) :
    s.processMakeOutput env chunk
      = (s.processLines env (segments (s.mData ++ cstr chunk)).1).map
          (fun s1 => s1.withData (segments (s.mData ++ cstr chunk)).2) := by
  have hloop := processMakeOutputLoop_eq env ((s.mData ++ cstr chunk).length + 1)
    (s.withData (s.mData ++ cstr chunk)) (Nat.lt_succ_self _)
  rw [processLines_withData] at hloop
  unfold MakefileParser.processMakeOutput
  cases hp : s.mProc with
  | none => exact absurd hp hproc
  | some proc =>
    simp only [MakefileParser.withData, hp] at hloop ⊢
    rw [hloop]
    cases s.processLines env (segments (s.mData ++ cstr chunk)).1 with
    | error e => rfl
    | ok s1 => rfl

/-- A sequence of chunks dispatches the segments of everything appended to the
buffer, and keeps the remainder. -/
theorem processChunks_eq {α : Type} (env : Collaborators α) (chunks : List ByteArray) :
    ∀ s : MakefileParser α, s.mProc ≠ none → newline ∉ s.mData →
      s.processChunks env chunks
        = (s.processLines env (segments (s.mData ++ (chunks.map cstr).flatten)).1).map
            (fun s1 => s1.withData (segments (s.mData ++ (chunks.map cstr).flatten)).2) := by
  induction chunks with
  | nil =>
    intro s _ hbuf
    simp only [List.map_nil, List.flatten_nil, List.append_nil, segments_of_not_mem _ hbuf,
      MakefileParser.processLines, MakefileParser.processChunks]
    rfl
  | cons chunk chunks ih =>
    intro s hproc hbuf
    simp only [MakefileParser.processChunks, List.map_cons, List.flatten_cons]
    rw [processMakeOutput_eq env s chunk hproc, ← List.append_assoc,
      segments_append (s.mData ++ cstr chunk) (chunks.map cstr).flatten, processLines_append]
    cases hrun : s.processLines env (segments (s.mData ++ cstr chunk)).1 with
    | error e => rfl
    | ok s1 =>
      simp only [Except.map]
      have hproc1 : (s1.withData (segments (s.mData ++ cstr chunk)).2).mProc ≠ none := by
        simp only [MakefileParser.withData]
        rw [processLines_mProc env _ s s1 hrun]
        exact hproc
      have hbuf1 : newline ∉ (s1.withData (segments (s.mData ++ cstr chunk)).2).mData :=
        (segments_spec (s.mData ++ cstr chunk)).2.2
      rw [ih _ hproc1 hbuf1]
      simp only [MakefileParser.withData]
      have := processLines_withData env
        (segments ((segments (s.mData ++ cstr chunk)).2 ++ (chunks.map cstr).flatten)).1 s1
        (segments (s.mData ++ cstr chunk)).2
      simp only [MakefileParser.withData] at this
      rw [this]
      cases s1.processLines env
        (segments ((segments (s.mData ++ cstr chunk)).2 ++ (chunks.map cstr).flatten)).1 with
      | error e => rfl
      | ok s2 => rfl

/-- C4 (counterexample): the stream consisting of the one chunk `a`, zero byte,
`b`, newline has one newline-terminated segment (`a`, zero byte, `b`) and
nothing after its last newline, and dispatching that segment would deliver it;
yet `processMakeOutput` dispatches nothing and retains `a` in the buffer. -/
theorem nul_chunk_loses_line :
    chunkWithNul = ['a', nul, 'b'] ++ [newline] ++ [] ∧
    newline ∉ ['a', nul, 'b'] ∧
    (sessionAtSrc.processLines acceptAll [['a', nul, 'b']]).map (fun s => s.fileReady)
      = .ok [['a', nul, 'b']] ∧
    (sessionAtSrc.processChunks acceptAll [chunkWithNul]).map
        (fun s => (s.fileReady, s.mData))
      = .ok ([], ['a']) := by
  refine ⟨rfl, by decide, by decide, by decide⟩

/-- C4 (amended): for every session with a child process and a buffer without a
newline, and every sequence of chunks arriving on standard output, each chunk
contributes its bytes before its first zero byte (all of them when it has none);
the buffer followed by these contributions splits in exactly one way into
newline-terminated `lines` and a newline-free `rest`, and the arrival of the
chunks has the outcome of dispatching `lines` in order to `processMakeLine`
(ending at a line on which the session aborts), with `rest` retained in the
buffer and not dispatched; the end of the process after the chunks (`onDone`)
changes nothing but the count of `done` signals: `rest` stays in the buffer and
is not dispatched. -/
theorem chunks_dispatch_segments {α : Type} (env : Collaborators α) (s : MakefileParser α)
    (chunks : List ByteArray) (hproc : s.mProc ≠ none) (hbuf : newline ∉ s.mData) :
    ((∀ c ∈ chunks, nul ∉ c) → chunks.map cstr = chunks) ∧
    ∃ lines rest,
      s.mData ++ (chunks.map cstr).flatten
        = (lines.map (fun l => l ++ [newline])).flatten ++ rest ∧
      (∀ l ∈ lines, newline ∉ l) ∧ newline ∉ rest ∧
      s.processChunks env chunks
        = (s.processLines env lines).map (fun s1 => s1.withData rest) ∧
      s.processStream env chunks
        = (s.processLines env lines).map
            (fun s1 => { s1 with mData := rest, done := s1.done + 1 }) := by
  constructor
  · intro h
    conv => rhs; rw [← List.map_id chunks]
    exact List.map_congr_left (fun c hc => cstr_of_not_mem c (h c hc))
  · obtain ⟨h1, h2, h3⟩ := segments_spec (s.mData ++ (chunks.map cstr).flatten)
    refine ⟨_, _, h1, h2, h3, processChunks_eq env chunks s hproc hbuf, ?_⟩
    unfold MakefileParser.processStream
    rw [processChunks_eq env chunks s hproc hbuf]
    cases s.processLines env (segments (s.mData ++ (chunks.map cstr).flatten)).1 with
    | error e => rfl
    | ok s1 => rfl

/-- C4 (amended), at a concrete input: two chunks that cut an announcement in
two and end in an incomplete line, every line being one the parser accepts. -/
theorem chunks_dispatch_segments_witness :
    ((∀ c ∈ twoChunks, nul ∉ c) → twoChunks.map cstr = twoChunks) ∧
    ∃ lines rest,
      sessionAtSrc.mData ++ (twoChunks.map cstr).flatten
        = (lines.map (fun l => l ++ [newline])).flatten ++ rest ∧
      (∀ l ∈ lines, newline ∉ l) ∧ newline ∉ rest ∧
      sessionAtSrc.processChunks acceptAll twoChunks
        = (sessionAtSrc.processLines acceptAll lines).map (fun s1 => s1.withData rest) ∧
      sessionAtSrc.processStream acceptAll twoChunks
        = (sessionAtSrc.processLines acceptAll lines).map
            (fun s1 => { s1 with mData := rest, done := s1.done + 1 }) :=
  chunks_dispatch_segments acceptAll sessionAtSrc twoChunks (by decide) (by decide)

example :
    (sessionAtSrc.processStream acceptAll twoChunks).map
        (fun s => (s.fileReady, s.mData, s.done))
      = .ok ([enteringLib], "gcc".toList, 1) := by decide

/-- Dispatching lines keeps the sum of the counters equal to the number of
invocations handed to the consumer. -/
theorem processLines_counters {α : Type} (env : Collaborators α) (lines : List ByteArray)
    (s s1 : MakefileParser α)
    (hinv : s.mSourceCount + s.mPchCount = s.fileReady.length)
    (h : s.processLines env lines = .ok s1) :
    s1.mSourceCount + s1.mPchCount = s1.fileReady.length := by
  induction lines generalizing s with
  | nil =>
    simp only [MakefileParser.processLines] at h
    cases h
    exact hinv
  | cons line lines ih =>
    simp only [MakefileParser.processLines] at h
    cases hstep : s.processMakeLine env line with
    | error e => simp [hstep] at h
    | ok s2 =>
      simp only [hstep] at h
      refine ih s2 ?_ h
      unfold MakefileParser.processMakeLine at hstep
      cases hp : s.mTracker.path with
      | error e => simp [hp] at hstep
      | ok cwd =>
        simp only [hp] at hstep
        cases hparse : env.parse line cwd with
        | some parsed =>
          simp only [hparse] at hstep
          split at hstep
          · cases hstep
            simp only [List.length_append, List.length_singleton]
            omega
          · cases hstep
            simp only [List.length_append, List.length_singleton]
            omega
        | none =>
          simp only [hparse] at hstep
          cases ht : s.mTracker.track env.resolved line with
          | error e => simp [ht] at hstep
          | ok t =>
            simp only [ht] at hstep
            cases hstep
            exact hinv

/-- C11: for every session with a current path `cwd` and every line, an
accepted line whose invocation (with the extra flags merged in) generates a
precompiled header adds exactly one to `mPchCount` and leaves `mSourceCount`,
any other accepted line adds exactly one to `mSourceCount` and leaves
`mPchCount`, and a rejected line changes neither; a fresh parser has both
counters at zero and nothing delivered, and dispatching lines keeps
`mSourceCount + mPchCount` equal to the number of invocations delivered. -/
theorem counters_follow_kind {α : Type} (env : Collaborators α) (s : MakefileParser α)
    (line : ByteArray) (cwd : Path) (hcwd : s.mTracker.path = .ok cwd) :
    (∀ parsed, env.parse line cwd = some parsed →
      ∃ s1, s.processMakeLine env line = .ok s1 ∧
        (env.isPch (env.addFlags parsed s.mExtraFlags) = true →
          s1.mPchCount = s.mPchCount + 1 ∧ s1.mSourceCount = s.mSourceCount) ∧
        (env.isPch (env.addFlags parsed s.mExtraFlags) = false →
          s1.mSourceCount = s.mSourceCount + 1 ∧ s1.mPchCount = s.mPchCount)) ∧
    (env.parse line cwd = none →
      ∀ s1, s.processMakeLine env line = .ok s1 →
        s1.mPchCount = s.mPchCount ∧ s1.mSourceCount = s.mSourceCount) ∧
    (∀ (extraFlags : List ByteArray) (tracker : DirectoryTracker) (proc : Option QProcess)
        (lines : List ByteArray) (s1 : MakefileParser α),
      ({ (MakefileParser.new extraFlags : MakefileParser α) with
          mTracker := tracker, mProc := proc }).processLines env lines = .ok s1 →
      s1.mSourceCount + s1.mPchCount = s1.fileReady.length) := by
  refine ⟨?_, ?_, ?_⟩
  · intro parsed hparse
    unfold MakefileParser.processMakeLine
    simp only [hcwd, hparse]
    cases hk : env.isPch (env.addFlags parsed s.mExtraFlags) with
    | true =>
      refine ⟨_, rfl, ?_, ?_⟩
      · intro _; exact ⟨rfl, rfl⟩
      · intro h; cases h
    | false =>
      refine ⟨_, rfl, ?_, ?_⟩
      · intro h; cases h
      · intro _; exact ⟨rfl, rfl⟩
  · intro hparse s1 h
    unfold MakefileParser.processMakeLine at h
    simp only [hcwd, hparse] at h
    cases ht : s.mTracker.track env.resolved line with
    | error e => simp [ht] at h
    | ok t =>
      simp only [ht] at h
      cases h
      exact ⟨rfl, rfl⟩
  · intro extraFlags tracker proc lines s1 h
    exact processLines_counters env lines _ s1 (by rfl) h

/-- C11, at concrete inputs: a line generating a precompiled header, then the
counters after a build of two compiles. -/
theorem counters_follow_kind_witness :
    (∃ s1, (sessionAt _ "/src".toList []).processMakeLine recording precompileFoo = .ok s1 ∧
      (recording.isPch (recording.addFlags (precompileFoo, "/src".toList, []) []) = true →
        s1.mPchCount = 0 + 1 ∧ s1.mSourceCount = 0) ∧
      (recording.isPch (recording.addFlags (precompileFoo, "/src".toList, []) []) = false →
        s1.mSourceCount = 0 + 1 ∧ s1.mPchCount = 0)) ∧
    sessionAfterBuild.mSourceCount + sessionAfterBuild.mPchCount
      = sessionAfterBuild.fileReady.length :=
  ⟨(counters_follow_kind recording (sessionAt _ "/src".toList []) precompileFoo
      "/src".toList (by decide)).1 (precompileFoo, "/src".toList, []) (by decide),
   (counters_follow_kind recording (sessionAt _ "/src".toList []) precompileFoo
      "/src".toList (by decide)).2.2 ["-DX".toList] (DirectoryTracker.new.init "/src".toList)
      (some { state := .Running }) buildLines sessionAfterBuild (by decide)⟩

/-- C12: for every session whose stack is the root `/src`, when `/src/lib`
resolves against `/src` to itself, the parser rejects the two announcements and
accepts the compiler line in `/src/lib` as an ordinary compile, dispatching the
three lines of the scenario in order succeeds, delivers exactly one invocation,
the parse of the compiler line with working directory `/src/lib` (extra flags
merged in), counts it as a source, and ends with stack depth 1 and `path()`
equal to `/src`. -/
theorem scenario_enter_compile_leave {α : Type} (env : Collaborators α)
    (s : MakefileParser α) (parsed : α)
    (hroot : s.mTracker.mPaths = ["/src".toList])
    (h1 : env.parse enteringLib "/src".toList = none)
    (hres : env.resolved "/src/lib".toList "/src".toList = some "/src/lib".toList)
    (h2 : env.parse compileFoo "/src/lib".toList = some parsed)
    (hkind : env.isPch (env.addFlags parsed s.mExtraFlags) = false)
    (h3 : env.parse leavingLib "/src/lib".toList = none) :
    ∃ s1, s.processLines env [enteringLib, compileFoo, leavingLib] = .ok s1 ∧
      s1.fileReady = s.fileReady ++ [env.addFlags parsed s.mExtraFlags] ∧
      s1.mSourceCount = s.mSourceCount + 1 ∧ s1.mPchCount = s.mPchCount ∧
      s1.mTracker.mPaths = ["/src".toList] ∧ s1.mTracker.mPaths.length = 1 ∧
      s1.mTracker.path = .ok "/src".toList := by
  have ha1 : indexIn (cstr enteringLib) = some ("Entering".toList, "/src/lib".toList) := by
    decide
  have ha3 : indexIn (cstr leavingLib) = some ("Leaving".toList, "/src/lib".toList) := by
    decide
  have hne : ("Leaving".toList = "Entering".toList) = False := by decide
  obtain ⟨mProc, ⟨mPaths, log⟩, mExtraFlags, mSourceCount, mPchCount, mData, mPchs,
    fileReady, done, mMakefile⟩ := s
  simp only at hroot hkind
  subst hroot
  refine ⟨{ mProc := mProc,
            mTracker :=
              { mPaths := ["/src".toList],
                log := log ++ [.debug "/src/lib".toList] ++ [.verboseDebug "/src/lib".toList] },
            mExtraFlags := mExtraFlags, mSourceCount := mSourceCount + 1,
            mPchCount := mPchCount, mData := mData, mPchs := mPchs,
            fileReady := fileReady ++ [env.addFlags parsed mExtraFlags], done := done,
            mMakefile := mMakefile },
    ?_, rfl, rfl, rfl, rfl, rfl, rfl⟩
  simp only [MakefileParser.processLines, MakefileParser.processMakeLine,
    DirectoryTracker.path, DirectoryTracker.track, DirectoryTracker.enterDirectory,
    DirectoryTracker.leaveDirectory, List.getLast?, List.getLast, ha1, ha3, h1, h2, h3,
    hres, hkind, hne, if_true, if_false, List.cons_append, List.nil_append,
    List.dropLast, Bool.false_eq_true]

/-- C12, at a concrete input: the scenario with `recording`, which accepts the
lines starting with `gcc ` and records the directory an invocation was parsed
in. -/
theorem scenario_enter_compile_leave_witness :
    ∃ s1, (sessionAt _ "/src".toList []).processLines recording
          [enteringLib, compileFoo, leavingLib] = .ok s1 ∧
      s1.fileReady = (sessionAt _ "/src".toList []).fileReady
        ++ [recording.addFlags (compileFoo, "/src/lib".toList, [])
              (sessionAt (ByteArray × Path × List ByteArray) "/src".toList []).mExtraFlags] ∧
      s1.mSourceCount
        = (sessionAt (ByteArray × Path × List ByteArray) "/src".toList []).mSourceCount + 1 ∧
      s1.mPchCount
        = (sessionAt (ByteArray × Path × List ByteArray) "/src".toList []).mPchCount ∧
      s1.mTracker.mPaths = ["/src".toList] ∧ s1.mTracker.mPaths.length = 1 ∧
      s1.mTracker.path = .ok "/src".toList :=
  scenario_enter_compile_leave recording (sessionAt _ "/src".toList [])
    (compileFoo, "/src/lib".toList, []) (by decide) (by decide) (by decide) (by decide)
    (by decide) (by decide)

/-- Recording an input header for a key leaves the lookup of other keys as it
was. -/
theorem find_assign_of_ne (m : PchMap) (key value candidate : ByteArray)
    (h : candidate ≠ key) : (m.assign key value).find candidate = m.find candidate := by
  unfold PchMap.assign
  have hk : ¬ key = candidate := fun e => h e.symm
  simp only [PchMap.find, hk, if_false]
  induction m with
  | nil => rfl
  | cons kv rest ih =>
    obtain ⟨k, v⟩ := kv
    by_cases hkk : k = key
    · subst hkk
      simp only [List.filter_cons, bne_self_eq_false, Bool.false_eq_true, if_false,
        PchMap.find, hk, ih]
    · have : (k != key) = true := by simpa using hkk
      simp only [List.filter_cons, this, if_true, PchMap.find, ih]

/-- Recording an input header for a key makes it the result of the lookup. -/
theorem find_assign_self (m : PchMap) (key value : ByteArray) :
    (m.assign key value).find key = some value := by
  simp [PchMap.assign, PchMap.find]

/-- C13: for every alias table, output artifact `o` and input header `i`, after
`setPch(o, i)` the call `mapPchToInput([o])` returns `[i]`, also when an
earlier `setPch` had recorded another input for `o`, and every candidate list
without `o` is resolved as before the call. -/
theorem setPch_round_trip {α : Type} (s : MakefileParser α) (o i earlier : ByteArray) :
    (s.setPch o i).mapPchToInput [o] = [i] ∧
    ((s.setPch o earlier).setPch o i).mapPchToInput [o] = [i] ∧
    (∀ input : List ByteArray, o ∉ input →
      (s.setPch o i).mapPchToInput input = s.mapPchToInput input) := by
  refine ⟨?_, ?_, ?_⟩
  · simp only [MakefileParser.mapPchToInput, MakefileParser.setPch, mapPchToInput_fold,
      List.filterMap_cons, find_assign_self, List.filterMap_nil, List.nil_append]
  · simp only [MakefileParser.mapPchToInput, MakefileParser.setPch, mapPchToInput_fold,
      List.filterMap_cons, find_assign_self, List.filterMap_nil, List.nil_append]
  · intro input hmem
    simp only [MakefileParser.mapPchToInput, MakefileParser.setPch, mapPchToInput_fold,
      List.nil_append]
    apply List.filterMap_congr
    intro c hc
    exact find_assign_of_ne _ _ _ _ (fun e => hmem (e ▸ hc))

/-- C13, at a concrete input: a precompiled header output recorded twice, and a
candidate list that does not name it. -/
theorem setPch_round_trip_witness :
    ((sessionAtSrc.setPch "foo.h.gch".toList "foo.h".toList).mapPchToInput
        ["foo.h.gch".toList] = ["foo.h".toList]) ∧
    (((sessionAtSrc.setPch "foo.h.gch".toList "old.h".toList).setPch "foo.h.gch".toList
        "foo.h".toList).mapPchToInput ["foo.h.gch".toList] = ["foo.h".toList]) ∧
    ((sessionAtSrc.setPch "bar.h.gch".toList "bar.h".toList).setPch "foo.h.gch".toList
        "foo.h".toList).mapPchToInput ["bar.h.gch".toList, "baz".toList]
      = (sessionAtSrc.setPch "bar.h.gch".toList "bar.h".toList).mapPchToInput
          ["bar.h.gch".toList, "baz".toList] :=
  ⟨(setPch_round_trip sessionAtSrc "foo.h.gch".toList "foo.h".toList "old.h".toList).1,
   (setPch_round_trip sessionAtSrc "foo.h.gch".toList "foo.h".toList "old.h".toList).2.1,
   (setPch_round_trip (sessionAtSrc.setPch "bar.h.gch".toList "bar.h".toList)
      "foo.h.gch".toList "foo.h".toList "old.h".toList).2.2
      ["bar.h.gch".toList, "baz".toList] (by decide)⟩

/-- C15: a freshly constructed parser is not done; a parser without a process is
not done; and a parser with a process is done exactly when the state of that
process is `NotRunning`. -/
theorem isDone_iff_not_running {α : Type} (s : MakefileParser α)
    (extraFlags : List ByteArray) :
    (MakefileParser.new extraFlags : MakefileParser α).isDone = false ∧
    (s.mProc = none → s.isDone = false) ∧
    (∀ proc, s.mProc = some proc → (s.isDone = true ↔ proc.state = .NotRunning)) := by
  refine ⟨rfl, ?_, ?_⟩
  · intro h
    simp only [MakefileParser.isDone, h]
  · intro proc h
    simp only [MakefileParser.isDone, h, decide_eq_true_eq]

/-- C15, at concrete inputs: no process, a running process, an exited
process. -/
theorem isDone_iff_not_running_witness :
    ((MakefileParser.new [] : MakefileParser ByteArray).isDone = false) ∧
    (sessionAtSrc.isDone = true ↔ ProcessState.Running = ProcessState.NotRunning) ∧
    (({ sessionAtSrc with mProc := some { state := .NotRunning } }).isDone = true
      ↔ ProcessState.NotRunning = ProcessState.NotRunning) :=
  ⟨(isDone_iff_not_running (MakefileParser.new [] : MakefileParser ByteArray) []).2.1 rfl,
   (isDone_iff_not_running sessionAtSrc []).2.2 { state := .Running } rfl,
   (isDone_iff_not_running { sessionAtSrc with mProc := some { state := .NotRunning } }
      []).2.2 { state := .NotRunning } rfl⟩

/-- C16: destroying a parser with a running child process performs the hard
kill first and the graceful terminate request only after it, where the
escalation described for the destructor has the terminate request first; the
wait for the exit follows both, and the process object is released after the
wait. -/
theorem destructor_kills_first :
    sessionAtSrc.destructor
      = [.kill, .terminate, .waitForFinished, .deleteProc, .deleteTracker] ∧
    sessionAtSrc.destructor.indexOf Teardown.kill
      < sessionAtSrc.destructor.indexOf Teardown.terminate ∧
    sessionAtSrc.destructor.indexOf Teardown.waitForFinished
      < sessionAtSrc.destructor.indexOf Teardown.deleteProc := by
  refine ⟨by decide, by decide, by decide⟩

/-- The operations of the destructor: with a child process the hard kill, the
terminate request, the wait for the exit and the release of the process object,
in this order, then the release of the tracker; without a child process only the
release of the tracker. -/
theorem destructor_sequence {α : Type} (s : MakefileParser α) :
    (∀ proc, s.mProc = some proc →
      s.destructor = [.kill, .terminate, .waitForFinished, .deleteProc, .deleteTracker]) ∧
    (s.mProc = none → s.destructor = [.deleteTracker]) := by
  constructor
  · intro proc h
    simp only [MakefileParser.destructor, h]
  · intro h
    simp only [MakefileParser.destructor, h]

/-- The C-string reading of a chunk with a zero byte is what stands before the
first zero byte. -/
theorem cstr_append_nul (before after : ByteArray) (h : nul ∉ before) :
    cstr (before ++ nul :: after) = before := by
  unfold cstr
  rw [List.takeWhile_append_of_pos]
  · simp
  · intro c hc
    simp only [bne_iff_ne, ne_eq]
    intro hn
    exact h (hn ▸ hc)

/-- C19: for every session with a child process and every chunk, if the chunk is
`before`, a zero byte, `after` with no zero byte in `before`, the outcome of
`processMakeOutput` is the one for the chunk `before` alone: the buffer followed
by `before` is split into lines that are dispatched and a remainder that is
retained, and nothing of `after` (its newlines and complete lines included)
reaches the buffer or `processMakeLine`; if the chunk has no zero byte, the
buffer followed by the whole chunk is split in this way. -/
theorem chunk_appended_as_cstring {α : Type} (env : Collaborators α) (s : MakefileParser α)
    (chunk : ByteArray) (hproc : s.mProc ≠ none) :
    (∀ before after, chunk = before ++ nul :: after → nul ∉ before →
      s.processMakeOutput env chunk = s.processMakeOutput env before ∧
      s.processMakeOutput env chunk
        = (s.processLines env (segments (s.mData ++ before)).1).map
            (fun s1 => s1.withData (segments (s.mData ++ before)).2)) ∧
    (nul ∉ chunk →
      s.processMakeOutput env chunk
        = (s.processLines env (segments (s.mData ++ chunk)).1).map
            (fun s1 => s1.withData (segments (s.mData ++ chunk)).2)) := by
  constructor
  · intro before after hchunk hbefore
    subst hchunk
    rw [processMakeOutput_eq env s _ hproc, processMakeOutput_eq env s before hproc,
      cstr_append_nul before after hbefore, cstr_of_not_mem before hbefore]
    exact ⟨rfl, rfl⟩
  · intro h
    rw [processMakeOutput_eq env s _ hproc, cstr_of_not_mem chunk h]

/-- C19, at concrete inputs: a chunk whose complete announcement line stands
after a zero byte leaves the stack at `/src` and only `gcc` in the buffer; the
same chunk without the zero byte dispatches the line. -/
theorem chunk_appended_as_cstring_witness :
    (sessionAtSrc.processMakeOutput rejectAll chunkHidingLine
        = sessionAtSrc.processMakeOutput rejectAll "gcc".toList ∧
      sessionAtSrc.processMakeOutput rejectAll chunkHidingLine
        = (sessionAtSrc.processLines rejectAll
            (segments (sessionAtSrc.mData ++ "gcc".toList)).1).map
            (fun s1 => s1.withData (segments (sessionAtSrc.mData ++ "gcc".toList)).2)) ∧
    (sessionAtSrc.processMakeOutput rejectAll (enteringLib ++ [newline])
      = (sessionAtSrc.processLines rejectAll
          (segments (sessionAtSrc.mData ++ (enteringLib ++ [newline]))).1).map
          (fun s1 =>
            s1.withData (segments (sessionAtSrc.mData ++ (enteringLib ++ [newline]))).2)) :=
  ⟨(chunk_appended_as_cstring rejectAll sessionAtSrc chunkHidingLine (by decide)).1
      "gcc".toList (newline :: enteringLib ++ [newline]) rfl (by decide),
   (chunk_appended_as_cstring rejectAll sessionAtSrc (enteringLib ++ [newline])
      (by decide)).2 (by decide)⟩

example :
    (sessionAtSrc.processMakeOutput rejectAll chunkHidingLine).map
        (fun s => (s.mTracker.mPaths, s.mData))
      = .ok (["/src".toList], "gcc".toList) := by decide

example :
    (sessionAtSrc.processMakeOutput rejectAll (enteringLib ++ [newline])).map
        (fun s => (s.mTracker.mPaths, s.mData))
      = .ok (["/src".toList, "/src/lib".toList], []) := by decide

/-- C14: for every parser without a process, every build file and every list of
extra arguments, `run` initialises the tracker so that `path()` is the parent
directory of the build file and starts the build tool with the eight fixed
arguments `-j1`, `-w`, `-f`, the build file, `-C`, that parent directory,
`AM_DEFAULT_VERBOSITY=1`, `VERBOSE=1`, followed by the extra arguments in their
given order as the last elements. -/
theorem run_arguments {α σ : Type} (host : Host) (qt : QStrings σ) (s : MakefileParser α)
    (makefile : Path) (args : List ByteArray) (hproc : s.mProc = none) :
    ∃ s1 call, s.run host qt makefile args = .ok (s1, call) ∧
      s1.mTracker.path = .ok (host.parentDir makefile) ∧
      call.program = qt.latin1 host.make ∧
      call.arguments
        = [qt.latin1 "-j1".toList, qt.latin1 "-w".toList, qt.latin1 "-f".toList,
           qt.fromLocal8Bit makefile, qt.latin1 "-C".toList,
           qt.fromStdString (host.parentDir makefile),
           qt.latin1 "AM_DEFAULT_VERBOSITY=1".toList, qt.latin1 "VERBOSE=1".toList]
          ++ args.map qt.fromStdString ∧
      call.arguments.drop 8 = args.map qt.fromStdString := by
  have hpath : (s.mTracker.init (host.parentDir makefile)).path
      = .ok (host.parentDir makefile) := by
    simp [DirectoryTracker.init, DirectoryTracker.path]
  unfold MakefileParser.run
  simp only [hproc, hpath]
  refine ⟨_, _, rfl, hpath, rfl, rfl, ?_⟩
  simp

/-- C14, at a concrete input: the build file `/src/Makefile` with two extra
arguments. -/
theorem run_arguments_witness :
    ∃ s1 call,
      (MakefileParser.new [] : MakefileParser ByteArray).run linuxHost plainStrings
          "/src/Makefile".toList ["-k".toList, "all".toList] = .ok (s1, call) ∧
      s1.mTracker.path = .ok (linuxHost.parentDir "/src/Makefile".toList) ∧
      call.program = plainStrings.latin1 linuxHost.make ∧
      call.arguments
        = [plainStrings.latin1 "-j1".toList, plainStrings.latin1 "-w".toList,
           plainStrings.latin1 "-f".toList, plainStrings.fromLocal8Bit "/src/Makefile".toList,
           plainStrings.latin1 "-C".toList,
           plainStrings.fromStdString (linuxHost.parentDir "/src/Makefile".toList),
           plainStrings.latin1 "AM_DEFAULT_VERBOSITY=1".toList,
           plainStrings.latin1 "VERBOSE=1".toList]
          ++ ["-k".toList, "all".toList].map plainStrings.fromStdString ∧
      call.arguments.drop 8 = ["-k".toList, "all".toList].map plainStrings.fromStdString :=
  run_arguments linuxHost plainStrings (MakefileParser.new [] : MakefileParser ByteArray)
    "/src/Makefile".toList ["-k".toList, "all".toList] rfl

example :
    ((MakefileParser.new [] : MakefileParser ByteArray).run linuxHost plainStrings
        "/src/Makefile".toList ["-k".toList, "all".toList]).map
        (fun r => (r.2.arguments, r.1.mTracker.mPaths))
      = .ok (["-j1".toList, "-w".toList, "-f".toList, "/src/Makefile".toList, "-C".toList,
              "/src/".toList, "AM_DEFAULT_VERBOSITY=1".toList, "VERBOSE=1".toList,
              "-k".toList, "all".toList],
             ["/src/".toList]) := by decide

/-- An entry found for a signature carries that signature. -/
theorem Registry.entry_signature (reg : Registry) (sig : ByteArray) (e : Precompile)
    (h : reg.entry sig = some e) : e.signature = sig := by
  unfold Registry.entry at h
  have := List.find?_some h
  simpa using this

/-- After `precompiler`, the entry returned is the one registered for the
signature. -/
theorem Registry.entry_precompiler (reg : Registry) (sig : ByteArray) :
    (reg.precompiler sig).1.entry sig = some (reg.precompiler sig).2 := by
  unfold Registry.precompiler
  cases h : reg.entry sig with
  | some e => exact h
  | none =>
    simp only [Registry.entry, List.find?_append] at h ⊢
    simp [h, Registry.fresh]

/-- Replacing the entries of a signature leaves the lookup with the replacement
when there was an entry. -/
theorem Registry.entry_map_replace (reg : Registry) (sig : ByteArray) (created : Precompile)
    (hc : created.signature = sig) (hsome : (reg.entry sig).isSome) :
    Registry.entry (reg.map (fun e => if e.signature = sig then created else e)) sig
      = some created := by
  unfold Registry.entry at hsome ⊢
  induction reg with
  | nil => simp at hsome
  | cons e rest ih =>
    by_cases he : e.signature = sig
    · simp [List.find?_cons, he, hc]
    · simp only [List.find?_cons, he, decide_False] at hsome
      simp only [List.map_cons, he, if_false, List.find?_cons, decide_False]
      exact ih hsome

/-- The entry registered for a signature stands at the place of the
signature. -/
theorem Registry.slot_of_entry (reg : Registry) (sig : ByteArray) (e : Precompile)
    (h : reg.entry sig = some e) : ∃ i, reg.slot sig = some i ∧ reg[i]? = some e := by
  induction reg with
  | nil => simp [Registry.entry] at h
  | cons x rest ih =>
    unfold Registry.entry at h ih
    by_cases hx : x.signature = sig
    · simp only [List.find?_cons, hx, decide_True, Option.some.injEq] at h
      exact ⟨0, by simp [Registry.slot, hx], by simp [h]⟩
    · simp only [List.find?_cons, hx, decide_False] at h
      obtain ⟨i, hi, hg⟩ := ih h
      exact ⟨i + 1, by simp [Registry.slot, hx, hi], by simpa using hg⟩

/-- A signature without an entry has no place. -/
theorem Registry.slot_of_entry_none (reg : Registry) (sig : ByteArray)
    (h : reg.entry sig = none) : reg.slot sig = none := by
  induction reg with
  | nil => rfl
  | cons x rest ih =>
    unfold Registry.entry at h ih
    by_cases hx : x.signature = sig
    · simp [List.find?_cons, hx] at h
    · simp only [List.find?_cons, hx, decide_False] at h
      simp [Registry.slot, hx, ih h]

/-- At the place of a signature stands an entry with that signature. -/
theorem Registry.entry_of_slot (reg : Registry) (sig : ByteArray) (i : Nat)
    (h : reg.slot sig = some i) :
    ∃ e, reg[i]? = some e ∧ reg.entry sig = some e ∧ e.signature = sig := by
  cases he : reg.entry sig with
  | none => rw [Registry.slot_of_entry_none reg sig he] at h; cases h
  | some e =>
    obtain ⟨j, hj, hg⟩ := Registry.slot_of_entry reg sig e he
    rw [hj] at h
    cases h
    exact ⟨e, hg, rfl, Registry.entry_signature reg sig e he⟩

/-- Registering further entries keeps the entries that are registered, at their
places. -/
theorem Registry.entry_append (reg more : Registry) (sig : ByteArray) (e : Precompile)
    (h : reg.entry sig = some e) :
    (reg ++ more).entry sig = some e ∧ (reg ++ more).slot sig = reg.slot sig := by
  induction reg with
  | nil => simp [Registry.entry] at h
  | cons x rest ih =>
    unfold Registry.entry at h ih ⊢
    by_cases hx : x.signature = sig
    · simp only [List.find?_cons, hx, decide_True] at h
      simp [List.find?_cons, Registry.slot, hx, h]
    · simp only [List.find?_cons, hx, decide_False] at h
      obtain ⟨h1, h2⟩ := ih h
      refine ⟨?_, ?_⟩
      · simp only [List.cons_append, List.find?_cons, hx, decide_False]
        exact h1
      · show Registry.slot (x :: (rest ++ more)) sig = Registry.slot (x :: rest) sig
        simp only [Registry.slot, hx, if_false, h2]

/-- The function `precompiler` keeps the entries that are registered, at their
places. -/
theorem Registry.precompiler_keeps (reg : Registry) (sig key : ByteArray) (e : Precompile)
    (h : reg.entry key = some e) :
    (reg.precompiler sig).1.entry key = some e ∧
      (reg.precompiler sig).1.slot key = reg.slot key := by
  unfold Registry.precompiler
  cases reg.entry sig with
  | some e0 => exact ⟨h, rfl⟩
  | none => exact Registry.entry_append reg _ key e h

/-- The entry `precompiler` returns stands in the registry at the place of the
signature. -/
theorem Registry.precompiler_registered (reg : Registry) (sig : ByteArray) :
    ∃ i, (reg.precompiler sig).1.slot sig = some i ∧
      (reg.precompiler sig).1[i]? = some (reg.precompiler sig).2 :=
  Registry.slot_of_entry _ sig _ (Registry.entry_precompiler reg sig)

/-- Replacing entries by entries with the same signature keeps all places. -/
theorem Registry.slot_map (reg : Registry) (f : Precompile → Precompile)
    (hf : ∀ e, (f e).signature = e.signature) (key : ByteArray) :
    Registry.slot (reg.map f) key = reg.slot key := by
  induction reg with
  | nil => rfl
  | cons x rest ih => simp only [List.map_cons, Registry.slot, hf, ih]

/-- Replacing the entries of a signature keeps the entries of the others. -/
theorem Registry.entry_map_other (reg : Registry) (sig key : ByteArray)
    (created : Precompile) (hc : created.signature = sig) (hk : key ≠ sig) :
    Registry.entry (reg.map (fun e => if e.signature = sig then created else e)) key
      = reg.entry key := by
  unfold Registry.entry
  induction reg with
  | nil => rfl
  | cons x rest ih =>
    by_cases hx : x.signature = sig
    · have h1 : ¬ created.signature = key := fun h => hk (h.symm.trans hc)
      have h2 : ¬ x.signature = key := fun h => hk (h.symm.trans hx)
      have h3 : ¬ sig = key := fun h => hk h.symm
      simp only [List.map_cons, hx, if_true, List.find?_cons, h1, h2, h3, decide_False, ih]
    · simp only [List.map_cons, hx, if_false, List.find?_cons, ih]

/-- C17: for every registry state: `precompiler` is a lookup-or-create tied to
the registry: the entry it returns stands in the registry afterwards at the
place of its signature, it is the registered entry when there was one (nothing
is registered then), and every entry registered before stays registered at its
place. Called twice with the same signature it returns the same entry instance
(same entry, same place, registry unchanged by the second call); called with two
different signatures it returns entries at two different places of the registry,
each carrying its signature. `create` with a signature already present keeps the
number of registry entries and the place of the entry, the entry then registered
for the signature has the given header path and fingerprints, and the entries of
other signatures are untouched. -/
theorem registry_identity (reg : Registry) (sig other headerFilePath : ByteArray)
    (dependencyFingerprints : List (Path × Nat)) :
    (∃ i, (reg.precompiler sig).1.slot sig = some i ∧
      (reg.precompiler sig).1[i]? = some (reg.precompiler sig).2 ∧
      (reg.precompiler sig).2.signature = sig) ∧
    (∀ e, reg.entry sig = some e → reg.precompiler sig = (reg, e)) ∧
    (reg.entry sig = none → (reg.precompiler sig).1.length = reg.length + 1) ∧
    (∀ key e, reg.entry key = some e →
      (reg.precompiler sig).1.entry key = some e ∧
      (reg.precompiler sig).1.slot key = reg.slot key) ∧
    ((reg.precompiler sig).1.precompiler sig = reg.precompiler sig) ∧
    (sig ≠ other →
      ∃ i j, i ≠ j ∧
        ((reg.precompiler sig).1.precompiler other).1.slot sig = some i ∧
        (reg.precompiler sig).1.slot sig = some i ∧
        ((reg.precompiler sig).1.precompiler other).1.slot other = some j ∧
        ((reg.precompiler sig).1.precompiler other).1[i]? = some (reg.precompiler sig).2 ∧
        ((reg.precompiler sig).1.precompiler other).1[j]?
          = some ((reg.precompiler sig).1.precompiler other).2 ∧
        ((reg.precompiler sig).1.precompiler other).2 ≠ (reg.precompiler sig).2 ∧
        (reg.precompiler sig).2.signature = sig ∧
        ((reg.precompiler sig).1.precompiler other).2.signature = other) ∧
    ((reg.entry sig).isSome →
      (reg.create sig headerFilePath dependencyFingerprints).length = reg.length ∧
      (reg.create sig headerFilePath dependencyFingerprints).slot sig = reg.slot sig ∧
      (∃ e, (reg.create sig headerFilePath dependencyFingerprints).entry sig = some e ∧
        e.headerFilePath = headerFilePath ∧
        e.dependencyFingerprints = dependencyFingerprints) ∧
      (∀ key, key ≠ sig →
        (reg.create sig headerFilePath dependencyFingerprints).entry key
          = reg.entry key)) := by
  have hsig : ∀ (r : Registry) (k : ByteArray), (r.precompiler k).2.signature = k := by
    intro r k
    exact Registry.entry_signature _ k _ (Registry.entry_precompiler r k)
  refine ⟨?_, ?_, ?_, ?_, ?_, ?_, ?_⟩
  · obtain ⟨i, h1, h2⟩ := Registry.precompiler_registered reg sig
    exact ⟨i, h1, h2, hsig reg sig⟩
  · intro e h
    simp only [Registry.precompiler, h]
  · intro h
    simp only [Registry.precompiler, h, List.length_append, List.length_singleton]
  · intro key e h
    exact Registry.precompiler_keeps reg sig key e h
  · have key : ∀ (r1 : Registry) (e1 : Precompile), r1.entry sig = some e1 →
        r1.precompiler sig = (r1, e1) := by
      intro r1 e1 h
      simp only [Registry.precompiler, h]
    exact key _ _ (Registry.entry_precompiler reg sig)
  · intro hne
    obtain ⟨i, hi, hgi⟩ := Registry.precompiler_registered reg sig
    obtain ⟨j, hj, hgj⟩ := Registry.precompiler_registered (reg.precompiler sig).1 other
    obtain ⟨hkeep, hslot⟩ := Registry.precompiler_keeps (reg.precompiler sig).1 other sig _
      (Registry.entry_precompiler reg sig)
    have hi2 : ((reg.precompiler sig).1.precompiler other).1.slot sig = some i := by
      rw [hslot, hi]
    obtain ⟨e, hge, hee, _⟩ := Registry.entry_of_slot _ sig i hi2
    rw [hkeep] at hee
    cases hee
    have hij : i ≠ j := by
      intro hij
      subst hij
      rw [hge] at hgj
      have h1 := hsig (reg.precompiler sig).1 other
      rw [← Option.some.inj hgj, hsig reg sig] at h1
      exact hne h1
    refine ⟨i, j, hij, hi2, hi, hj, hge, hgj, ?_, hsig reg sig, hsig _ other⟩
    intro heq
    have h1 := hsig (reg.precompiler sig).1 other
    rw [heq, hsig reg sig] at h1
    exact hne h1
  · intro hsome
    unfold Registry.create
    cases h : reg.entry sig with
    | none => simp [h] at hsome
    | some e0 =>
      simp only [List.length_map, true_and]
      refine ⟨?_, ⟨_, Registry.entry_map_replace reg sig _ rfl (by simp [h]), rfl, rfl⟩, ?_⟩
      · apply Registry.slot_map
        intro e
        by_cases he : e.signature = sig
        · simp [he, Registry.fresh]
        · simp [he]
      · intro key hk
        exact Registry.entry_map_other reg sig key _ rfl hk

/-- C17, at a concrete input: a registry with entries for `a.h` and `b.h`; the
entry of `a.h` is requested, then a third signature, and the entry of `a.h` is
created again with a new header path. -/
theorem registry_identity_witness :
    (twoEntries.precompiler "gcc -O2|a.h".toList = (twoEntries, entryForA)) ∧
    ((twoEntries.precompiler "gcc -O2|c.h".toList).1.length = twoEntries.length + 1) ∧
    ((twoEntries.precompiler "gcc -O2|c.h".toList).1.entry "gcc -O2|a.h".toList
        = some entryForA ∧
      (twoEntries.precompiler "gcc -O2|c.h".toList).1.slot "gcc -O2|a.h".toList
        = twoEntries.slot "gcc -O2|a.h".toList) ∧
    (∃ i j, i ≠ j ∧
      ((twoEntries.precompiler "gcc -O2|a.h".toList).1.precompiler
        "gcc -O2|c.h".toList).1.slot "gcc -O2|a.h".toList = some i ∧
      (twoEntries.precompiler "gcc -O2|a.h".toList).1.slot "gcc -O2|a.h".toList = some i ∧
      ((twoEntries.precompiler "gcc -O2|a.h".toList).1.precompiler
        "gcc -O2|c.h".toList).1.slot "gcc -O2|c.h".toList = some j ∧
      ((twoEntries.precompiler "gcc -O2|a.h".toList).1.precompiler
        "gcc -O2|c.h".toList).1[i]? = some (twoEntries.precompiler "gcc -O2|a.h".toList).2 ∧
      ((twoEntries.precompiler "gcc -O2|a.h".toList).1.precompiler
        "gcc -O2|c.h".toList).1[j]?
        = some ((twoEntries.precompiler "gcc -O2|a.h".toList).1.precompiler
            "gcc -O2|c.h".toList).2 ∧
      ((twoEntries.precompiler "gcc -O2|a.h".toList).1.precompiler "gcc -O2|c.h".toList).2
        ≠ (twoEntries.precompiler "gcc -O2|a.h".toList).2 ∧
      (twoEntries.precompiler "gcc -O2|a.h".toList).2.signature = "gcc -O2|a.h".toList ∧
      ((twoEntries.precompiler "gcc -O2|a.h".toList).1.precompiler
        "gcc -O2|c.h".toList).2.signature = "gcc -O2|c.h".toList) ∧
    ((twoEntries.create "gcc -O2|a.h".toList "/tmp/new.h".toList
        [("/src/a.h".toList, 8)]).length = twoEntries.length ∧
      (twoEntries.create "gcc -O2|a.h".toList "/tmp/new.h".toList
        [("/src/a.h".toList, 8)]).slot "gcc -O2|a.h".toList
        = twoEntries.slot "gcc -O2|a.h".toList ∧
      (∃ e, (twoEntries.create "gcc -O2|a.h".toList "/tmp/new.h".toList
          [("/src/a.h".toList, 8)]).entry "gcc -O2|a.h".toList = some e ∧
        e.headerFilePath = "/tmp/new.h".toList ∧
        e.dependencyFingerprints = [("/src/a.h".toList, 8)]) ∧
      (∀ key, key ≠ "gcc -O2|a.h".toList →
        (twoEntries.create "gcc -O2|a.h".toList "/tmp/new.h".toList
          [("/src/a.h".toList, 8)]).entry key = twoEntries.entry key)) :=
  ⟨(registry_identity twoEntries "gcc -O2|a.h".toList "gcc -O2|c.h".toList
      "/tmp/new.h".toList [("/src/a.h".toList, 8)]).2.1 entryForA (by decide),
   (registry_identity twoEntries "gcc -O2|c.h".toList "gcc -O2|a.h".toList
      "/tmp/new.h".toList [("/src/a.h".toList, 8)]).2.2.1 (by decide),
   (registry_identity twoEntries "gcc -O2|c.h".toList "gcc -O2|a.h".toList
      "/tmp/new.h".toList [("/src/a.h".toList, 8)]).2.2.2.1 "gcc -O2|a.h".toList entryForA
      (by decide),
   (registry_identity twoEntries "gcc -O2|a.h".toList "gcc -O2|c.h".toList
      "/tmp/new.h".toList [("/src/a.h".toList, 8)]).2.2.2.2.2.1 (by decide),
   (registry_identity twoEntries "gcc -O2|a.h".toList "gcc -O2|c.h".toList
      "/tmp/new.h".toList [("/src/a.h".toList, 8)]).2.2.2.2.2.2 (by decide)⟩

example :
    ((twoEntries.precompiler "gcc -O2|a.h".toList).1.precompiler "gcc -O2|c.h".toList).1
      = [entryForA, Registry.fresh "gcc -O2|b.h".toList,
         Registry.fresh "gcc -O2|c.h".toList] := by decide

/-- A literal at the front is removed. -/
theorem dropLiteral_append (lit rest : ByteArray) :
    dropLiteral lit (lit ++ rest) = some rest := by
  induction lit with
  | nil => cases rest <;> rfl
  | cons c cs ih => simp [dropLiteral, ih]

/-- Bytes taken up to the first byte that fails the test. -/
theorem takeWhile_until (p : Char → Bool) (a b : ByteArray) (c : Char)
    (ha : ∀ x ∈ a, p x = true) (hc : p c = false) :
    (a ++ c :: b).takeWhile p = a := by
  rw [List.takeWhile_append_of_pos ha, List.takeWhile_cons]
  simp [hc]

/-- Bytes dropped up to the first byte that fails the test. -/
theorem dropWhile_until (p : Char → Bool) (a b : ByteArray) (c : Char)
    (ha : ∀ x ∈ a, p x = true) (hc : p c = false) :
    (a ++ c :: b).dropWhile p = c :: b := by
  rw [List.dropWhile_append_of_pos ha, List.dropWhile_cons]
  simp [hc]

/-- Bytes other than `c` pass the test of being different from `c`. -/
theorem all_ne_of_not_mem (c : Char) (a : ByteArray) (h : c ∉ a) :
    ∀ x ∈ a, (x != c) = true := by
  intro x hx
  simp only [bne_iff_ne, ne_eq]
  intro e
  exact h (e ▸ hx)

/-- The pattern matches the text of an announcement at the front of a byte
string, with the verb and the directory as captures. -/
theorem matchHere_announcementText (mid verb dir suf : ByteArray)
    (hmid : ':' ∉ mid) (hverb : verb ≠ []) (hverb1 : ' ' ∉ verb)
    (hdir : dir ≠ []) (hdir1 : apostrophe ∉ dir) :
    matchHere (announcementText mid verb dir ++ suf) = some (verb, dir) := by
  have e1 : announcementText mid verb dir ++ suf
      = "make".toList ++ (mid ++ ':' :: (' ' :: (verb ++ ' ' ::
          ("directory ".toList ++ [backquote] ++ (dir ++ apostrophe :: suf))))) := by
    simp [announcementText]
  have e2 : ∀ r : ByteArray, ':' :: ' ' :: r = ": ".toList ++ r := fun _ => rfl
  have e3 : ∀ r : ByteArray, ' ' :: ("directory ".toList ++ [backquote] ++ r)
      = (" directory ".toList ++ [backquote]) ++ r := fun _ => rfl
  have e4 : ∀ r : ByteArray, apostrophe :: r = [apostrophe] ++ r := fun _ => rfl
  rw [e1]
  unfold matchHere
  simp only [dropLiteral_append]
  rw [dropWhile_until _ mid _ ':' (all_ne_of_not_mem ':' mid hmid) (by decide)]
  simp only [e2, dropLiteral_append]
  rw [takeWhile_until _ verb _ ' ' (all_ne_of_not_mem ' ' verb hverb1) (by decide),
    dropWhile_until _ verb _ ' ' (all_ne_of_not_mem ' ' verb hverb1) (by decide)]
  simp only [hverb, if_false, e3, dropLiteral_append]
  rw [takeWhile_until _ dir _ apostrophe (all_ne_of_not_mem apostrophe dir hdir1) (by decide),
    dropWhile_until _ dir _ apostrophe (all_ne_of_not_mem apostrophe dir hdir1) (by decide)]
  simp only [hdir, if_false]
  rw [e4 suf, dropLiteral_append]

/-- A match at the front of the text is the result of the search. -/
theorem indexIn_of_matchHere (text : ByteArray) (r : ByteArray × ByteArray)
    (h : matchHere text = some r) : indexIn text = some r := by
  cases text with
  | nil => simp [matchHere, dropLiteral] at h
  | cons c cs => simp only [indexIn, h]

/-- The search skips the offsets at which the pattern does not match. -/
theorem indexIn_skip (pre text : ByteArray)
    (h : ∀ k, k < pre.length → matchHere ((pre ++ text).drop k) = none) :
    indexIn (pre ++ text) = indexIn text := by
  induction pre with
  | nil => rfl
  | cons c cs ih =>
    have h0 := h 0 (by simp)
    simp only [List.drop_zero] at h0
    rw [List.cons_append] at h0 ⊢
    simp only [indexIn, h0]
    apply ih
    intro k hk
    have := h (k + 1) (by simp only [List.length_cons]; omega)
    simpa using this

/-- A C-string reader reads through the bytes that hold no zero byte. -/
theorem cstr_append_of_not_mem (a b : ByteArray) (h : nul ∉ a) :
    cstr (a ++ b) = a ++ cstr b := by
  unfold cstr
  rw [List.takeWhile_append_of_pos (all_ne_of_not_mem nul a h)]

/-- C18 (counterexample): a line that contains, at offset 29, the text of an
`Entering` announcement for `/b`, is rejected by the invocation parser, and
whose directory `/b` resolves, is not treated as that announcement: a `Leaving`
announcement stands before it in the line, and `track` pops the stack `/src`,
`/src/lib` instead of pushing `/b`. -/
theorem leftmost_announcement_wins :
    leavingThenEntering
      = "make: Leaving directory `/a' ".toList
        ++ (announcementText [] "Entering".toList "/b".toList ++ []) ∧
    rejectAll.parse leavingThenEntering "/src/lib".toList = none ∧
    rejectAll.resolved "/b".toList "/src/lib".toList = some "/b".toList ∧
    (sessionInLib.processMakeLine rejectAll leavingThenEntering).map
        (fun s => s.mTracker.mPaths)
      = .ok ["/src".toList] := by
  refine ⟨by decide, rfl, rfl, by decide⟩

/-- C18 (amended): the announcement pattern is searched anywhere in the line:
for every session with current path `cwd` and every line the invocation parser
rejects, if the line is `pre`, then the text `make`, `mid`, `: Entering
directory`, backquote, `dir`, apostrophe, then `suf` (no colon in `mid`, `dir`
non-empty and without apostrophe, no zero byte up to the apostrophe), and the
pattern matches at no earlier offset of the line, then `processMakeLine` pushes
`resolved(dir, cwd)` when `dir` resolves, and `path()` becomes that path. -/
theorem entering_found_at_offset {α : Type} (env : Collaborators α) (s : MakefileParser α)
    (line pre mid dir suf : ByteArray) (cwd newPath : Path)
    (hline : line = pre ++ (announcementText mid "Entering".toList dir ++ suf))
    (hnul : nul ∉ pre ++ announcementText mid "Entering".toList dir)
    (hmid : ':' ∉ mid) (hdir : dir ≠ []) (hdir1 : apostrophe ∉ dir)
    (hfirst : ∀ k, k < pre.length → matchHere ((cstr line).drop k) = none)
    (htop : s.mTracker.mPaths.getLast? = some cwd)
    (hrej : env.parse line cwd = none)
    (hres : env.resolved dir cwd = some newPath) :
    ∃ s1, s.processMakeLine env line = .ok s1 ∧
      s1.mTracker.mPaths = s.mTracker.mPaths ++ [newPath] ∧
      s1.mTracker.path = .ok newPath := by
  have hc : cstr line = pre ++ (announcementText mid "Entering".toList dir ++ cstr suf) := by
    rw [hline, ← List.append_assoc, cstr_append_of_not_mem _ _ hnul, List.append_assoc]
  have hidx : indexIn (cstr line) = some ("Entering".toList, dir) := by
    rw [hc] at hfirst ⊢
    rw [indexIn_skip _ _ hfirst]
    exact indexIn_of_matchHere _ _
      (matchHere_announcementText mid "Entering".toList dir (cstr suf) hmid (by decide)
        (by decide) hdir hdir1)
  unfold MakefileParser.processMakeLine
  simp only [DirectoryTracker.path, htop, hrej, DirectoryTracker.track, hidx, if_true,
    DirectoryTracker.enterDirectory, hres]
  refine ⟨_, rfl, rfl, ?_⟩
  simp

/-- C18 (amended), at a concrete input: the announcement of a build tool named
`cmake`, found at offset 1 of the line. -/
theorem entering_found_at_offset_witness :
    ∃ s1, sessionAtSrc.processMakeLine rejectAll
          ("c".toList ++ (announcementText [] "Entering".toList "/src/lib".toList ++ []))
          = .ok s1 ∧
      s1.mTracker.mPaths = sessionAtSrc.mTracker.mPaths ++ ["/src/lib".toList] ∧
      s1.mTracker.path = .ok "/src/lib".toList :=
  entering_found_at_offset rejectAll sessionAtSrc
    ("c".toList ++ (announcementText [] "Entering".toList "/src/lib".toList ++ []))
    "c".toList [] "/src/lib".toList [] "/src".toList "/src/lib".toList rfl (by decide)
    (by decide) (by decide) (by decide)
    (by
      intro k hk
      have hk0 : k = 0 := by
        have : "c".toList.length = 1 := rfl
        omega
      subst hk0
      decide)
    (by decide) rfl (by decide)

example : "c".toList ++ (announcementText [] "Entering".toList "/src/lib".toList ++ [])
    = "cmake: Entering directory `/src/lib'".toList := by decide

end RTags
